import Mathlib

/-!
Verification development for the exam-management extraction pipeline
(`parser/extract.py`, `parser/parse_questions.py`, `utils/storage.py`).

Strings are modelled as `List Char`.  The Python `re` operations used by the
source are embedded through a small backtracking pattern engine (`RE`, `mre`)
whose constructs cover exactly the features the source patterns use: literals
(case-sensitive and case-insensitive), single-character classes, greedy and
lazy repetition over character classes, alternation, optional groups,
lookahead, and the `^`/`$`/`\Z` anchors.  Every substitution pattern in the
source matches at least one character, so the substitution driver never has
to handle empty matches.
-/

namespace ExamMgmt

abbrev Str := List Char

/-- Python whitespace class `\s` (also the set stripped by `str.strip()`). -/
def wsb (c : Char) : Bool :=
  c = ' ' || c = '\t' || c = '\n' || c = '\r' || c = '\x0b' || c = '\x0c'

/-- ASCII digit, Python `\d`. -/
def digitB (c : Char) : Bool := c.isDigit

/-- Class `[A-Z]` under `re.IGNORECASE`: ASCII letters of either case. -/
def letterCIB (c : Char) : Bool :=
  ('A' ≤ c && c ≤ 'Z') || ('a' ≤ c && c ≤ 'z')

/-- Plain `[A-Z]`. -/
def upperB (c : Char) : Bool := 'A' ≤ c && c ≤ 'Z'

/-- The class `[\x20-\x7E\n\r\t]` kept by the normalizer's character filter. -/
def printableB (c : Char) : Bool :=
  (0x20 ≤ c.toNat && c.toNat ≤ 0x7E) || c = '\n' || c = '\r' || c = '\t'

/-- Python `str.lower()` restricted to ASCII. -/
def lowerS (s : Str) : Str := s.map Char.toLower

/-- Python `str.find`: index of the first occurrence of `p`, if any. -/
def strFind (p : Str) : Str → Option Nat
  | [] => if p.isPrefixOf ([] : Str) then some 0 else none
  | c :: t => if p.isPrefixOf (c :: t) then some 0 else (strFind p t).map (· + 1)

/-- Python `p in s` for Python strings. -/
def containsSub (s p : Str) : Bool := (strFind p s).isSome

/-- Strip leading Python whitespace. -/
def lstrip (s : Str) : Str := s.dropWhile wsb

/-- Strip trailing Python whitespace. -/
def rstrip (s : Str) : Str := (s.reverse.dropWhile wsb).reverse

/-- Python `str.strip()`. -/
def pyStrip (s : Str) : Str := lstrip (rstrip s)

/-- Python `str.rstrip(chars)` for a single character argument. -/
def rstripChar (c : Char) (s : Str) : Str := (s.reverse.dropWhile (· = c)).reverse

/-- Numeric value of a digit run (`int` applied to the captured digits). -/
def natOfDigits (ds : Str) : Nat := ds.foldl (fun a c => 10 * a + (c.toNat - 48)) 0

/-- Decimal rendering of a natural number, for the extractor's f-strings. -/
def natToStr (n : Nat) : Str := (Nat.toDigits 10 n)

/-! ### The pattern engine

A pattern is matched with an explicit continuation; `prev` is the character
immediately before the current position (needed by the `^` anchors and to
resume scanning after a match).  Greedy constructs try the longest
alternative first, lazy ones the shortest, and `alt` tries its left branch
first, exactly as Python's backtracking engine does. -/

inductive RE where
  | eps : RE
  | cls (p : Char → Bool) : RE
  | lit (s : Str) : RE
  | litCI (s : Str) : RE
  | seq (a b : RE) : RE
  | alt (a b : RE) : RE
  | starG (p : Char → Bool) : RE
  | starL (p : Char → Bool) : RE
  | plusG (p : Char → Bool) : RE
  | plusL (p : Char → Bool) : RE
  | opt (r : RE) : RE
  | la (r : RE) : RE
  | bos : RE
  | eol : RE
  | eos : RE

/-- Greedy class repetition: consume as many `p`-characters as possible,
backing off one at a time until the continuation succeeds. -/
def starGo (p : Char → Bool) (k : Option Char → Str → Option (Option Char × Str)) :
    Option Char → Str → Option (Option Char × Str)
  | pr, [] => k pr []
  | pr, c :: t =>
    if p c then
      match starGo p k (some c) t with
      | some r => some r
      | none => k pr (c :: t)
    else k pr (c :: t)

/-- Lazy class repetition: try the continuation first, consuming a character
only when it fails. -/
def starLo (p : Char → Bool) (k : Option Char → Str → Option (Option Char × Str)) :
    Option Char → Str → Option (Option Char × Str)
  | pr, [] => k pr []
  | pr, c :: t =>
    match k pr (c :: t) with
    | some r => some r
    | none => if p c then starLo p k (some c) t else none

/-- Consume a literal (optionally case-insensitively). -/
def litGo (ci : Bool) : Str → Option Char → Str →
    (Option Char → Str → Option (Option Char × Str)) → Option (Option Char × Str)
  | [], pr, s, k => k pr s
  | _ :: _, _, [], _ => none
  | l :: ls, _, c :: t, k =>
    if (if ci then l.toLower = c.toLower else l = c) then litGo ci ls (some c) t k else none

/-- The backtracking matcher. -/
def mre : RE → Option Char → Str →
    (Option Char → Str → Option (Option Char × Str)) → Option (Option Char × Str)
  | .eps, pr, s, k => k pr s
  | .cls p, _, s, k =>
    match s with
    | [] => none
    | c :: t => if p c then k (some c) t else none
  | .lit l, pr, s, k => litGo false l pr s k
  | .litCI l, pr, s, k => litGo true l pr s k
  | .seq a b, pr, s, k => mre a pr s (fun pr' s' => mre b pr' s' k)
  | .alt a b, pr, s, k =>
    match mre a pr s k with
    | some r => some r
    | none => mre b pr s k
  | .starG p, pr, s, k => starGo p k pr s
  | .starL p, pr, s, k => starLo p k pr s
  | .plusG p, _, s, k =>
    match s with
    | [] => none
    | c :: t => if p c then starGo p k (some c) t else none
  | .plusL p, _, s, k =>
    match s with
    | [] => none
    | c :: t => if p c then starLo p k (some c) t else none
  | .opt r, pr, s, k =>
    match mre r pr s k with
    | some v => some v
    | none => k pr s
  | .la r, pr, s, k =>
    match mre r pr s (fun pr' s' => some (pr', s')) with
    | some _ => k pr s
    | none => none
  | .bos, pr, s, k => if pr = none then k pr s else none
  | .eol, pr, s, k => if s = [] ∨ s = ['\n'] then k pr s else none
  | .eos, pr, s, k => if s = [] then k pr s else none

/-- Attempt the pattern at the current position; on success return the state
after the whole match. -/
def reTry (re : RE) (pr : Option Char) (s : Str) : Option (Option Char × Str) :=
  mre re pr s (fun pr' s' => some (pr', s'))

/-- Python `re.search`: leftmost match, returning its start index and matched text. -/
def searchAux (re : RE) : Option Char → Str → Nat → Option (Nat × Str)
  | pr, [], i =>
    match reTry re pr [] with
    | some _ => some (i, [])
    | none => none
  | pr, c :: t, i =>
    match reTry re pr (c :: t) with
    | some (_, rest) => some (i, (c :: t).take ((c :: t).length - rest.length))
    | none => searchAux re (some c) t (i + 1)

def pySearch (re : RE) (s : Str) : Option (Nat × Str) := searchAux re none s 0

/-- Python `re.sub` with a constant replacement.  Every pattern substituted in the
source matches at least one character; a zero-width match is treated as a
failure to guarantee progress.  The fuel is the string length, which bounds
the number of scanning steps. -/
def subAllAux (re : RE) (repl : Str) : Nat → Option Char → Str → Str
  | 0, _, s => s
  | fuel + 1, pr, s =>
    match reTry re pr s with
    | some (pr', rest) =>
      if rest.length < s.length then repl ++ subAllAux re repl fuel pr' rest
      else
        match s with
        | [] => []
        | c :: t => c :: subAllAux re repl fuel (some c) t
    | none =>
      match s with
      | [] => []
      | c :: t => c :: subAllAux re repl fuel (some c) t

def pySub (re : RE) (repl : Str) (s : Str) : Str :=
  subAllAux re repl (s.length + 1) none s

/-- Sequence a list of patterns. -/
def reSeq (l : List RE) : RE := l.foldr RE.seq RE.eps

/-- Alternation over a non-empty list, left branch preferred. -/
def reAlts (r : RE) (l : List RE) : RE := l.foldl RE.alt r

def reLit (s : String) : RE := RE.lit s.data

def reLitCI (s : String) : RE := RE.litCI s.data

/-- Class of `.` under `re.DOTALL`. -/
def anyCh (_ : Char) : Bool := true

/-- Class of `.` without `re.DOTALL`. -/
def notNlB (c : Char) : Bool := c != '\n'

/-! ### `clean_text` (extract.py lines 126-162)

Each `re.sub` of the normalizer is one named rule; `clean_text` is their
composition, in source order, followed by `str.strip()`. -/

/-- Rule `re.sub(r'www\.examtopics\.com', '', text, flags=re.IGNORECASE)` -/
def cleanRule1 (t : Str) : Str := pySub (reLitCI "www.examtopics.com") [] t

/-- Rule `re.sub(r'Page \d+ of \d+', '', text, flags=re.IGNORECASE)` -/
def cleanRule2 (t : Str) : Str :=
  pySub (reSeq [reLitCI "Page ", .plusG digitB, reLitCI " of ", .plusG digitB]) [] t

/-- Rule `re.sub(r'Exam [A-Z]+-\d+', '', text, flags=re.IGNORECASE)` -/
def cleanRule3 (t : Str) : Str :=
  pySub (reSeq [reLitCI "Exam ", .plusG letterCIB, reLit "-", .plusG digitB]) [] t

/-- The tail alternation `(?:\(|-|\d+ of \d+|$)` of the footer patterns. -/
def footerTailE : RE :=
  reAlts (reLit "(") [reLit "-", reSeq [.plusG digitB, reLitCI " of ", .plusG digitB], .eol]

/-- The same alternation without the dash, `(?:\(|\d+ of \d+|$)`. -/
def footerTailNoDashE : RE :=
  reAlts (reLit "(") [reSeq [.plusG digitB, reLitCI " of ", .plusG digitB], .eol]

/-- Rule `re.sub(r'Microsoft Certified.*?(?:Question Bank|Study Materials|ExamTopics).*?(?:\(|-|\d+ of \d+|$)', '', text, flags=re.IGNORECASE | re.DOTALL)` -/
def cleanRule4 (t : Str) : Str :=
  pySub (reSeq [reLitCI "Microsoft Certified", .starL anyCh,
    reAlts (reLitCI "Question Bank") [reLitCI "Study Materials", reLitCI "ExamTopics"],
    .starL anyCh, footerTailE]) [] t

/-- Rule `re.sub(r'Question Bank.*?(?:\(|-|\d+ of \d+|$)', '', text, flags=re.IGNORECASE | re.DOTALL)` -/
def cleanRule5 (t : Str) : Str :=
  pySub (reSeq [reLitCI "Question Bank", .starL anyCh, footerTailE]) [] t

/-- Rule `re.sub(r'ExamTopics.*?(?:\(|\d+ of \d+|$)', '', text, flags=re.IGNORECASE | re.DOTALL)` -/
def cleanRule6 (t : Str) : Str :=
  pySub (reSeq [reLitCI "ExamTopics", .starL anyCh, footerTailNoDashE]) [] t

/-- Rule `re.sub(r'[^\x20-\x7E\n\r\t]', '', text)` -/
def cleanRule7 (t : Str) : Str := pySub (.cls (fun c => !printableB c)) [] t

/-- Rule `re.sub(r'\x0c', '', text)` -/
def cleanRule8 (t : Str) : Str := pySub (RE.lit ['\x0c']) [] t

/-- Rule `re.sub(r'\x0b', '', text)` -/
def cleanRule9 (t : Str) : Str := pySub (RE.lit ['\x0b']) [] t

/-- Rule `re.sub(r'\*\*+', '', text)` -/
def cleanRule10 (t : Str) : Str := pySub (reSeq [reLit "*", .plusG (· = '*')]) [] t

/-- Rule `re.sub(r'__+', '', text)` -/
def cleanRule11 (t : Str) : Str := pySub (reSeq [reLit "_", .plusG (· = '_')]) [] t

/-- Rule `re.sub(r'(?:HOTSPOT|Case study|Overview|Existing Environment).*?(?=\n\n|\Z)', '', text, flags=re.IGNORECASE | re.DOTALL)` -/
def cleanRule12 (t : Str) : Str :=
  pySub (reSeq [reAlts (reLitCI "HOTSPOT") [reLitCI "Case study", reLitCI "Overview",
    reLitCI "Existing Environment"], .starL anyCh, .la (RE.alt (reLit "\n\n") .eos)]) [] t

/-- Rule `re.sub(r'This is a case study\..*?(?=Question|\Z)', '', text, flags=re.IGNORECASE | re.DOTALL)` -/
def cleanRule13 (t : Str) : Str :=
  pySub (reSeq [reLitCI "This is a case study.", .starL anyCh,
    .la (RE.alt (reLitCI "Question") .eos)]) [] t

/-- Rule `re.sub(r'\n\s*\n\s*\n+', '\n\n', text)` -/
def cleanRule14 (t : Str) : Str :=
  pySub (reSeq [reLit "\n", .starG wsb, reLit "\n", .starG wsb, .plusG (· = '\n')])
    "\n\n".data t

/-- Rule `re.sub(r' +', ' ', text)` -/
def cleanRule15 (t : Str) : Str := pySub (.plusG (· = ' ')) [' '] t

/-- Rule `re.sub(r'\n +', '\n', text)` -/
def cleanRule16 (t : Str) : Str := pySub (reSeq [reLit "\n", .plusG (· = ' ')]) ['\n'] t

/-- Rule `re.sub(r' +\n', '\n', text)` -/
def cleanRule17 (t : Str) : Str := pySub (reSeq [.plusG (· = ' '), reLit "\n"]) ['\n'] t

/-- Function `clean_text` from `parser/extract.py`: the sixteen rewrite rules in source
order, then `text.strip()`. -/
def clean_text (t : Str) : Str :=
  pyStrip (cleanRule17 (cleanRule16 (cleanRule15 (cleanRule14 (cleanRule13
    (cleanRule12 (cleanRule11 (cleanRule10 (cleanRule9 (cleanRule8 (cleanRule7
    (cleanRule6 (cleanRule5 (cleanRule4 (cleanRule3 (cleanRule2
    (cleanRule1 t)))))))))))))))))

/-! ### Extractor image naming (extract.py lines 58, 85, 110)

The three f-strings that name saved images. -/

/-- Filename `f"{pdf_name}_page{page_num + 1}_img{img_index + 1}.{image_ext}"` -/
def imgImageName (pdf : Str) (page : Nat) (idx : Nat) (ext : Str) : Str :=
  pdf ++ "_page".data ++ natToStr page ++ "_img".data ++ natToStr idx ++ ".".data ++ ext

/-- Filename `f"{pdf_name}_page{page_num + 1}_drawing{drawing_index + 1}.{image_ext}"` -/
def drawingImageName (pdf : Str) (page : Nat) (idx : Nat) (ext : Str) : Str :=
  pdf ++ "_page".data ++ natToStr page ++ "_drawing".data ++ natToStr idx ++ ".".data ++ ext

/-- Filename `f"{pdf_name}_page{page_num + 1}_fullpage.png"` -/
def fullpageImageName (pdf : Str) (page : Nat) : Str :=
  pdf ++ "_page".data ++ natToStr page ++ "_fullpage.png".data

/-! ### `map_images_to_pages` (parse_questions.py lines 360-383)

`re.search(r'_page(\d+)_img\d+', image_name)`: the repetitions are over the
digit class followed by a non-digit literal, so neither `\d+` can backtrack
and the search reduces to scanning for `"_page"`, a maximal non-empty digit
run, `"_img"`, and one more digit. -/

def imgPageAt (s : Str) : Option Nat :=
  if "_page".data.isPrefixOf s then
    let r := s.drop 5
    let ds := r.takeWhile digitB
    if ds.isEmpty then none
    else
      let r2 := r.drop ds.length
      if "_img".data.isPrefixOf r2 then
        match r2.drop 4 with
        | c :: _ => if c.isDigit then some (natOfDigits ds) else none
        | [] => none
      else none
  else none

/-- Page number encoded in an image filename, if the mapper's pattern matches
(first occurrence wins). -/
def imgPage : Str → Option Nat
  | [] => none
  | c :: t =>
    match imgPageAt (c :: t) with
    | some n => some n
    | none => imgPage t

/-- Update `images_by_page[page_num].append(image_name)`, creating the key on first
use; Python dicts keep insertion order, modelled by an association list. -/
def addImage : List (Nat × List Str) → Nat → Str → List (Nat × List Str)
  | [], n, f => [(n, [f])]
  | (k, v) :: t, n, f =>
    if k = n then (k, v ++ [f]) :: t else (k, v) :: addImage t n f

/-- Function `map_images_to_pages` from `parser/parse_questions.py`; the `text`
argument is accepted and ignored, as in the source. -/
def map_images_to_pages (_text : Str) (all_images : List Str) : List (Nat × List Str) :=
  all_images.foldl (fun m f =>
    match imgPage f with
    | some n => addImage m n f
    | none => m) []

/-- Lookup `images_by_page.get(page_number, [])`. -/
def pagesGet (m : List (Nat × List Str)) (n : Nat) : List Str :=
  ((m.find? (fun e => e.1 = n)).map Prod.snd).getD []

/-! ### `detect_question_type` (parse_questions.py lines 10-53) -/

def multi_keywords : List Str :=
  ["select two", "select three", "choose two", "choose three",
   "select all that apply", "choose all that apply", "select all",
   "pick two", "pick three", "two correct", "three correct",
   "each correct selection", "multiple answers"].map String.data

def drag_keywords : List Str :=
  ["drag", "drop", "match", "order", "arrange", "sequence", "hotspot",
   "hot area"].map String.data

def input_keywords : List Str :=
  ["your answer", "_____", "fill in", "type the", "enter the"].map String.data

/-- Python `" ".join(...)`. -/
def joinSpace (l : List Str) : Str := List.intercalate [' '] l

def detect_question_type (stem : Str) (choices : List (Char × Str)) (has_image : Bool) :
    Str :=
  let stem_lower := lowerS stem
  if choices.length = 2 ∧
      (containsSub (lowerS (joinSpace (choices.map Prod.snd))) "yes".data ∧
       containsSub (lowerS (joinSpace (choices.map Prod.snd))) "no".data) then
    "yes_no".data
  else if multi_keywords.any (fun k => containsSub stem_lower k) then
    "multiple_choice_multiple".data
  else if drag_keywords.any (fun k => containsSub stem_lower k) then
    "input_text".data
  else if input_keywords.any (fun k => containsSub stem_lower k) ∨ choices.length = 0 then
    "input_text".data
  else if has_image ∧ choices.length ≤ 2 then
    "image_selection".data
  else
    "multiple_choice_single".data

/-! ### `extract_choices` (parse_questions.py lines 56-177)

The main pattern
`^([A-Z])[.)]\s*(.+?)(?=^[A-Z][.)]|Microsoft Certified|Suggested Answer|Discussion|Hot Area|Note:|HOTSPOT|\Z)`
is compiled with `MULTILINE | DOTALL` and driven by `finditer`.  It is
hand-compiled here: a match needs a line start, an uppercase letter, `.` or
`)`, the greedy whitespace run, then the lazy body running to the earliest
position where the lookahead alternation holds.  The lookahead's `\Z` branch
always holds at the end of the string, so the body scan fails only when the
greedy `\s*` consumed the entire remainder; then the engine backtracks the
`\s*` by one character and the lazy body takes exactly that character. -/

def atBolB (pr : Option Char) : Bool := pr = none || pr = some '\n'

/-- The lookahead alternation, evaluated at a position given by the previous
character `pr` and the remaining text `s`. -/
def choiceStop (pr : Option Char) (s : Str) : Bool :=
  (atBolB pr &&
    match s with
    | a :: d :: _ => upperB a && (d = '.' || d = ')')
    | _ => false) ||
  "Microsoft Certified".data.isPrefixOf s ||
  "Suggested Answer".data.isPrefixOf s ||
  "Discussion".data.isPrefixOf s ||
  "Hot Area".data.isPrefixOf s ||
  "Note:".data.isPrefixOf s ||
  "HOTSPOT".data.isPrefixOf s ||
  s.isEmpty

/-- Lazy body `(.+?)` up to the earliest stop position; on success returns
the body, the character before the stop position, and the rest. -/
def takeBody : Str → Option (Str × Option Char × Str)
  | [] => none
  | c :: t =>
    if choiceStop (some c) t then some ([c], some c, t)
    else
      match takeBody t with
      | some (b, pr, r) => some (c :: b, pr, r)
      | none => none

/-- One attempt of the main choice pattern at the current position. -/
def choiceMatchAt (pr : Option Char) (s : Str) :
    Option (Char × Str × Option Char × Str) :=
  if atBolB pr then
    match s with
    | a :: d :: rest =>
      if upperB a && (d = '.' || d = ')') then
        let w := rest.takeWhile wsb
        let r := rest.drop w.length
        match takeBody r with
        | some (b, pr2, rest2) => some (a, b, pr2, rest2)
        | none =>
          match w.getLast? with
          | some cw => some (a, [cw], some cw, [])
          | none => none
      else none
    | _ => none
  else none

/-- Python `finditer`: scan left to right, resuming after each match. -/
def choiceFindAux : Nat → Option Char → Str → List (Char × Str)
  | 0, _, _ => []
  | fuel + 1, pr, s =>
    match choiceMatchAt pr s with
    | some (a, b, pr2, rest) => (a, b) :: choiceFindAux fuel pr2 rest
    | none =>
      match s with
      | [] => []
      | c :: t => choiceFindAux fuel (some c) t

def choiceFind (s : Str) : List (Char × Str) := choiceFindAux (s.length + 1) none s

/-- Pattern `\s+` -/
def wsP : RE := .plusG wsb

/-- The footer tail `(?:\(|-|\d+\s+of\s+\d+\)|$)` used in parse_questions.py
(note the `\s+` and the closing parenthesis, unlike the extract.py variant). -/
def pqFooterTailE : RE :=
  reAlts (reLit "(") [reLit "-",
    reSeq [.plusG digitB, wsP, reLitCI "of", wsP, .plusG digitB, reLit ")"], .eol]

/-- The same tail without the dash branch, `(?:\(|\d+\s+of\s+\d+\)|$)`. -/
def pqFooterTailNoDashE : RE :=
  reAlts (reLit "(")
    [reSeq [.plusG digitB, wsP, reLitCI "of", wsP, .plusG digitB, reLit ")"], .eol]

/-- Line 72: `Microsoft Certified.*?(?:Question Bank|Study Materials|ExamTopics).*?(?:\(|-|\d+\s+of\s+\d+\)|$)` (IGNORECASE, DOTALL). -/
def pqFooter1E : RE :=
  reSeq [reLitCI "Microsoft Certified", .starL anyCh,
    reAlts (reLitCI "Question Bank") [reLitCI "Study Materials", reLitCI "ExamTopics"],
    .starL anyCh, pqFooterTailE]

/-- Line 73: `Question Bank.*?(?:\(|-|\d+\s+of\s+\d+\)|$)`. -/
def pqFooter2E : RE := reSeq [reLitCI "Question Bank", .starL anyCh, pqFooterTailE]

/-- Line 74: `ExamTopics.*?(?:\(|\d+\s+of\s+\d+\)|$)`. -/
def pqFooter3E : RE := reSeq [reLitCI "ExamTopics", .starL anyCh, pqFooterTailNoDashE]

/-- Line 76: `\(?\d+\s+of\s+\d+\)`. -/
def pageStampE : RE :=
  reSeq [.opt (reLit "("), .plusG digitB, wsP, reLitCI "of", wsP, .plusG digitB, reLit ")"]

/-- Group `(majority|comments|community)` -/
def commentGroupE : RE :=
  reAlts (reLitCI "majority") [reLitCI "comments", reLitCI "community"]

/-- Group `(agree|recommends?|suggests?)` -/
def agreeGroupShortE : RE :=
  reAlts (reLitCI "agree")
    [reSeq [reLitCI "recommend", .opt (reLitCI "s")],
     reSeq [reLitCI "suggest", .opt (reLitCI "s")]]

/-- The `explanation_patterns` list (lines 79-116), searched with
`re.IGNORECASE` (no DOTALL, so `.` excludes newlines and `^` anchors at the
string start only). -/
def explPatterns : List RE :=
  [reSeq [.bos, reLitCI "The", wsP, commentGroupE],
   reSeq [wsP, reLitCI "The", wsP, commentGroupE],
   reSeq [wsP, reLitCI "the", wsP, commentGroupE],
   reSeq [wsP,
     reAlts (reLitCI "because") [reLitCI "since", reLitCI "as", reLitCI "therefore",
       reLitCI "however", reLitCI "although", reLitCI "while", reLitCI "when",
       reLitCI "where", reLitCI "if"], wsP],
   reSeq [wsP,
     reAlts (reLitCI "agree")
       [reSeq [reLitCI "recommend", .opt (reLitCI "s")],
        reSeq [reLitCI "suggest", .opt (reLitCI "s")],
        reSeq [reLitCI "explain", .opt (reLitCI "s")],
        reSeq [reLitCI "indicate", .opt (reLitCI "s")],
        reSeq [reLitCI "show", .opt (reLitCI "s")],
        reSeq [reLitCI "demonstrate", .opt (reLitCI "s")]], wsP],
   reSeq [reLit ":", .starG wsb, .cls notNlB],
   reSeq [reLit ".", wsP,
     reAlts (reLitCI "This") [reLitCI "It", reLitCI "However", reLitCI "Therefore",
       reLitCI "Also", reLitCI "While", reLitCI "Although", reLitCI "The",
       reLitCI "Since", reLitCI "Because", reLitCI "As", reLitCI "If",
       reLitCI "When", reLitCI "Where"], wsP],
   reSeq [wsP, reLit "-", wsP],
   reSeq [reLit ".", wsP, reLitCI "Citations"],
   reSeq [reLit ".", wsP, reLitCI "Refer", wsP, reLitCI "to"],
   reSeq [reLit ".", wsP, reLitCI "See", wsP],
   reSeq [reLit ".", wsP, reLitCI "For", wsP, reLitCI "more"],
   reSeq [wsP, reLitCI "AI", wsP, reLitCI "Recommended"],
   reSeq [wsP, reLitCI "Several", wsP, reLitCI "users"],
   reSeq [wsP, reLitCI "Many", wsP, reLitCI "comments"],
   reSeq [wsP, reLitCI "Furthermore"],
   reSeq [wsP, reLitCI "receive", .opt (reLitCI "s"), wsP, reLitCI "the", wsP,
     reLitCI "license"],
   reSeq [wsP, reLitCI "inherit", .opt (reLitCI "s"), wsP, reLitCI "the"],
   reSeq [reLit ".", wsP, reLitCI "The", wsP, reLitCI "comment", .opt (reLitCI "s"),
     wsP, agreeGroupShortE],
   reSeq [wsP, reLitCI "the", wsP, reLitCI "comment", .opt (reLitCI "s"), wsP,
     agreeGroupShortE],
   reSeq [wsP, reLitCI "receive", .opt (reLitCI "s"), wsP, reLitCI "the", wsP,
     reLitCI "license", wsP, reLitCI "through"],
   reSeq [wsP, reLitCI "does", wsP, reLitCI "not", wsP, reLitCI "inherit"],
   reSeq [wsP, reLitCI "is", wsP, reLitCI "incorrect", wsP, reLitCI "because"]]

/-- Lines 118-126: truncate at the first pattern of the list that matches
(leftmost match of that pattern), restoring a sentence period when the match
began with one; `break` after the first matching pattern. -/
def applyExpl : List RE → Str → Str
  | [], t => t
  | re :: rest, t =>
    match pySearch re t with
    | some (i, m) =>
      let t2 := pyStrip (t.take i)
      if ¬ t2.getLast? = some '.' ∧ m.head? = some '.' then t2 ++ ['.'] else t2
    | none => applyExpl rest t

def explanation_starters : List Str :=
  ["this", "while", "although", "however", "because", "since",
   "the", "it", "management", "creating", "using", "modifying",
   "a ", "an ", "is ", "are ", "was ", "were ", "will ", "would "].map String.data

/-- Lines 130-154: the colon heuristic. -/
def colonStep (t : Str) : Str :=
  if containsSub t [':'] then
    let before := pyStrip (t.takeWhile (fun c => c != ':'))
    let after := pyStrip ((t.dropWhile (fun c => c != ':')).drop 1)
    if 30 < after.length ∨
        explanation_starters.any (fun w => w.isPrefixOf (lowerS after)) ∨
        (10 < before.length ∧ 0 < after.length) then
      before
    else t
  else t

/-- Line 163: `\s*(Microsoft Certified|Question Bank|ExamTopics).*$` (IGNORECASE). -/
def trailFooterE : RE :=
  reSeq [.starG wsb,
    reAlts (reLitCI "Microsoft Certified") [reLitCI "Question Bank", reLitCI "ExamTopics"],
    .starG notNlB, .eol]

/-- The cleaning pipeline applied to each matched option body
(lines 69-175 of parse_questions.py, in source order). -/
def cleanChoice (raw : Str) : Str :=
  let t0 := pyStrip raw
  let t1 := pySub pqFooter1E [] t0
  let t2 := pySub pqFooter2E [] t1
  let t3 := pySub pqFooter3E [] t2
  let t4 := pySub pageStampE [] t3
  let t5 := applyExpl explPatterns t4
  let t6 := colonStep t5
  let t7 := pyStrip (rstripChar ':' t6)
  let t8 := pySub (.plusG wsb) [' '] t7
  let t9 := pySub trailFooterE [] t8
  let t10 := rstripChar '.' t9
  let t11 :=
    if 200 < t10.length ∧ containsSub t10 ['.'] then
      let i := (strFind ['.'] t10).getD 0
      if 20 < i then t10.take (i + 1) else t10
    else t10
  pyStrip t11

/-- Python-dict assignment `choices[letter] = v`: replace in place if the key
exists, else append (insertion order preserved). -/
def assocSet : List (Char × Str) → Char → Str → List (Char × Str)
  | [], a, v => [(a, v)]
  | (k, w) :: t, a, v =>
    if k = a then (a, v) :: t else (k, w) :: assocSet t a v

/-- Function `extract_choices` from `parser/parse_questions.py`. -/
def extract_choices (text : Str) : List (Char × Str) :=
  (choiceFind text).foldl (fun m p => assocSet m p.1 (cleanChoice p.2)) []

/-! ### Stem post-processing (parse_questions.py lines 296-315)

After the block is split at the first lettered-option marker, the stem is
truncated at an answer-section marker and footer patterns are removed.  The
marker loop tries the five markers in list order and `break`s at the first
marker present anywhere in the stem. -/

def answer_markers : List Str :=
  ["Suggested Answer:", "Discussion Summary", "AI Recommended Answer",
   "Web Recommended Answer", "Community Answer"].map String.data

/-- Lines 305-309: `question_stem.find(marker)`, truncate and strip at the
first marker (in list order) that occurs. -/
def truncAtMarkers : List Str → Str → Str
  | [], t => t
  | m :: ms, t =>
    match strFind m t with
    | some i => pyStrip (t.take i)
    | none => truncAtMarkers ms t

/-- Lines 296-315: marker truncation followed by the three footer
substitutions and `strip()`. -/
def cleanStem (stem : Str) : Str :=
  let t1 := truncAtMarkers answer_markers stem
  let t2 := pySub pqFooter1E [] t1
  let t3 := pySub pqFooter2E [] t2
  let t4 := pySub pageStampE [] t3
  pyStrip t4

/-! ### Storage (utils/storage.py)

A persisted exam collection is one JSON record per line; `load_exam` of a
missing file yields `[]` and `save_exam` rewrites the whole file.  The
stored state is therefore modelled as the list of records, and the two
mutating operations as pure functions of that list.  Records carry the
fields the pipeline's assembler writes (parse_questions.py lines 338-353). -/

structure Question where
  question_id : Int
  pdf_question_number : Str
  source_pdf : Str
  page_number : Int
  question_type : Str
  question : Str
  choices : List (Char × Str)
  pdf_answer : Str
  web_recommended_answer : Str
  ai_recommended_answer : Str
  web_explanation : Str
  ai_explanation : Str
  images : List Str
  user_answer : Option Str
deriving DecidableEq, Repr

/-- Python `max_id = 0` if the collection is empty, else
`max(q.get("question_id", 0) for q in existing_questions)`. -/
def pyMaxIds : List Int → Int
  | [] => 0
  | x :: xs => xs.foldl max x

/-- Function `append_questions_to_exam` (storage.py lines 105-127): renumber the new
records from `max_id + 1` in order, then store the concatenation. -/
def append_questions_to_exam (existing new_questions : List Question) : List Question :=
  let maxId := pyMaxIds (existing.map (·.question_id))
  existing ++ new_questions.enum.map (fun p => { p.2 with question_id := maxId + p.1 + 1 })

/-- Function `update_exam_question` (storage.py lines 130-150): replace the first
record whose `question_id` matches and save; return `False` (leaving the
stored list untouched) when no record matches. -/
def update_exam_question : List Question → Int → Question → Bool × List Question
  | [], _, _ => (false, [])
  | q :: t, qid, upd =>
    if q.question_id = qid then (true, upd :: t)
    else
      let r := update_exam_question t qid upd
      (r.1, q :: r.2)

/-! ### Page markers

The observable used for the Normalizer claims: the ordered list of page
numbers of the `--- PAGE <n> ---` markers occurring in a text
(extract.py line 38 writes the marker; parse_questions.py line 278 reads
it back with `--- PAGE (\d+) ---`). -/

/-- After the `"--- PAGE "` header: a non-empty digit run then `" ---"`. -/
def markerDigits (r : Str) : Option Nat :=
  if (r.takeWhile Char.isDigit).isEmpty then none
  else if " ---".data.isPrefixOf (r.drop (r.takeWhile Char.isDigit).length) then
    some (natOfDigits (r.takeWhile Char.isDigit))
  else none

/-- Header of a marker occurrence starting at this position: `"--- PAGE "`,
a non-empty digit run, then `" ---"`. -/
def markerAt (s : Str) : Option Nat :=
  if "--- PAGE ".data.isPrefixOf s then markerDigits (s.drop 9) else none

/-- All marker page numbers, in order of occurrence. -/
def markersOf : Str → List Nat
  | [] => []
  | c :: t =>
    match markerAt (c :: t) with
    | some n => n :: markersOf t
    | none => markersOf t

/-- A fully default record used to build concrete collections. -/
def sampleQ (n : Int) : Question :=
  ⟨n, [], [], 1, [], [], [], [], [], [], [], [], [], none⟩

/-- A concrete ten-record collection with ids 1 through 10. -/
def ex10 : List Question :=
  [sampleQ 1, sampleQ 2, sampleQ 3, sampleQ 4, sampleQ 5,
   sampleQ 6, sampleQ 7, sampleQ 8, sampleQ 9, sampleQ 10]

/-- A replacement record that differs from `sampleQ 1` in `question_id`,
`source_pdf` and `images`. -/
def rogueUpd : Question :=
  { sampleQ 1 with question_id := 99, source_pdf := ['x'], images := [['y']] }

/-- The replacement the app's edit form would build: identity fields kept,
content fields changed. -/
def editUpd : Question := { sampleQ 1 with web_explanation := ['n'] }

/-- The claimed key-set shape: a contiguous run of letters starting at 'A'. -/
def isContiguousFromA (ks : List Char) : Bool :=
  ks = (List.range ks.length).map (fun i => Char.ofNat ('A'.toNat + i))

/-- A full marker occurrence: header, digits, trailer. -/
def markerCore (ds : Str) : Str := "--- PAGE ".data ++ ds ++ " ---".data

/-- Key sequence of a Python dict built by repeated assignment: first
occurrence of each key fixes its position. -/
def pyDictKeys (ls : List Char) : List Char :=
  ls.foldl (fun ks a => if a ∈ ks then ks else ks ++ [a]) []

/-- Minimum number of characters any match of a pattern consumes. -/
def minLen : RE → Nat
  | .eps => 0
  | .cls _ => 1
  | .lit s => s.length
  | .litCI s => s.length
  | .seq a b => minLen a + minLen b
  | .alt a b => min (minLen a) (minLen b)
  | .starG _ => 0
  | .starL _ => 0
  | .plusG _ => 1
  | .plusL _ => 1
  | .opt _ => 0
  | .la _ => 0
  | .bos => 0
  | .eol => 0
  | .eos => 0

/-! ## Theorems -/





/-- C8: appending 3 parsed questions to a stored collection whose ids are
1..10 keeps the 10 original records unchanged, in order, and stores the new
records with ids 11, 12, 13 in order. -/
theorem C8_append_ids_11_12_13 (existing : List Question) (a b c : Question)
    (h : existing.map (fun q => q.question_id) = [1, 2, 3, 4, 5, 6, 7, 8, 9, 10]) :
    append_questions_to_exam existing [a, b, c] =
      existing ++ [{ a with question_id := 11 }, { b with question_id := 12 },
        { c with question_id := 13 }] := by
  unfold append_questions_to_exam
  rw [h]
  norm_num [pyMaxIds, List.enum, List.enumFrom]

/-- Witness for C8 at a concrete ten-record collection. -/
theorem C8_append_witness :
    append_questions_to_exam ex10 [sampleQ 0, sampleQ 0, sampleQ 0] =
      ex10 ++ [{ sampleQ 0 with question_id := 11 },
        { sampleQ 0 with question_id := 12 },
        { sampleQ 0 with question_id := 13 }] :=
  C8_append_ids_11_12_13 ex10 (sampleQ 0) (sampleQ 0) (sampleQ 0) (by decide)

/-- C10: `update_exam_question` reports success exactly when some stored
record has the requested id, and on failure the stored collection is
untouched. -/
theorem C10_update_found_iff_and_no_write (stored : List Question) (qid : Int)
    (upd : Question) :
    ((update_exam_question stored qid upd).1 = true ↔
      ∃ q ∈ stored, q.question_id = qid) ∧
    ((update_exam_question stored qid upd).1 = false →
      (update_exam_question stored qid upd).2 = stored) := by
  induction stored with
  | nil => simp [update_exam_question]
  | cons q t ih =>
    by_cases h : q.question_id = qid
    · simp [update_exam_question, h]
    · simpa [update_exam_question, h] using ih

/-- Witness for C10 on a concrete collection and a missing id. -/
theorem C10_update_witness :
    ((update_exam_question [sampleQ 1] 5 (sampleQ 7)).1 = true ↔
      ∃ q ∈ [sampleQ 1], q.question_id = 5) ∧
    ((update_exam_question [sampleQ 1] 5 (sampleQ 7)).1 = false →
      (update_exam_question [sampleQ 1] 5 (sampleQ 7)).2 = [sampleQ 1]) :=
  C10_update_found_iff_and_no_write [sampleQ 1] 5 (sampleQ 7)



/-- C9 counterexample: `update_exam_question` replaces the whole record with
whatever is passed, so a successful edit can change `question_id` (and
`source_pdf`, `images`): with stored record id 1 and a replacement carrying
id 99, the stored record's id after the edit is 99. -/
theorem C9_counterexample :
    (update_exam_question [sampleQ 1] 1 rogueUpd).1 = true ∧
    (update_exam_question [sampleQ 1] 1 rogueUpd).2 = [rogueUpd] ∧
    rogueUpd.question_id ≠ (sampleQ 1).question_id ∧
    rogueUpd.source_pdf ≠ (sampleQ 1).source_pdf ∧
    rogueUpd.images ≠ (sampleQ 1).images := by
  refine ⟨rfl, rfl, ?_, ?_, ?_⟩ <;> decide

/-- C9 amended: the edit path preserves `question_id`, `source_pdf` and
`images` provided the replacement record agrees on those fields with the
record it replaces (which is how the app's edit form builds it); moreover
either nothing is written, or exactly the first matching record is replaced
and every other record is untouched. -/
theorem C9_update_preserves_identity_fields (stored : List Question) (qid : Int)
    (upd : Question) (h1 : upd.question_id = qid)
    (h2 : ∀ q ∈ stored, q.question_id = qid →
      upd.source_pdf = q.source_pdf ∧ upd.images = q.images) :
    ((update_exam_question stored qid upd).2.map (fun q => q.question_id) =
      stored.map (fun q => q.question_id)) ∧
    ((update_exam_question stored qid upd).2.map (fun q => q.source_pdf) =
      stored.map (fun q => q.source_pdf)) ∧
    ((update_exam_question stored qid upd).2.map (fun q => q.images) =
      stored.map (fun q => q.images)) ∧
    (((update_exam_question stored qid upd).1 = false ∧
        (update_exam_question stored qid upd).2 = stored) ∨
      ∃ i, ∃ hi : i < stored.length,
        (stored.get ⟨i, hi⟩).question_id = qid ∧
        (update_exam_question stored qid upd).2 = stored.set i upd) := by
  induction stored with
  | nil => exact ⟨rfl, rfl, rfl, Or.inl ⟨rfl, rfl⟩⟩
  | cons q t ih =>
    by_cases h : q.question_id = qid
    · have hsi := h2 q (List.mem_cons_self q t) h
      refine ⟨?_, ?_, ?_, Or.inr ⟨0, by simp, by simpa using h, by simp [update_exam_question, h]⟩⟩
      · have hqq : upd.question_id = q.question_id := h1.trans h.symm
        simp [update_exam_question, h, hqq]
      · simp [update_exam_question, h, hsi.1]
      · simp [update_exam_question, h, hsi.2]
    · have h2t : ∀ q' ∈ t, q'.question_id = qid →
          upd.source_pdf = q'.source_pdf ∧ upd.images = q'.images :=
        fun q' hm hq => h2 q' (List.mem_cons_of_mem q hm) hq
      obtain ⟨i1, i2, i3, i4⟩ := ih h2t
      refine ⟨by simp [update_exam_question, h, i1], by simp [update_exam_question, h, i2],
        by simp [update_exam_question, h, i3], ?_⟩
      rcases i4 with ⟨hf, hs⟩ | ⟨i, hi, hqi, hs⟩
      · exact Or.inl ⟨by simp [update_exam_question, h, hf], by simp [update_exam_question, h, hs]⟩
      · exact Or.inr ⟨i + 1, by simpa using Nat.succ_lt_succ hi,
          by simpa using hqi, by simp [update_exam_question, h, hs]⟩



/-- Witness for the amended C9 on a concrete single-record collection. -/
theorem C9_update_witness :
    ((update_exam_question [sampleQ 1] 1 editUpd).2.map (fun q => q.question_id) =
      [sampleQ 1].map (fun q => q.question_id)) ∧
    ((update_exam_question [sampleQ 1] 1 editUpd).2.map (fun q => q.source_pdf) =
      [sampleQ 1].map (fun q => q.source_pdf)) ∧
    ((update_exam_question [sampleQ 1] 1 editUpd).2.map (fun q => q.images) =
      [sampleQ 1].map (fun q => q.images)) ∧
    (((update_exam_question [sampleQ 1] 1 editUpd).1 = false ∧
        (update_exam_question [sampleQ 1] 1 editUpd).2 = [sampleQ 1]) ∨
      ∃ i, ∃ hi : i < [sampleQ 1].length,
        ([sampleQ 1].get ⟨i, hi⟩).question_id = 1 ∧
        (update_exam_question [sampleQ 1] 1 editUpd).2 = [sampleQ 1].set i editUpd) :=
  C9_update_preserves_identity_fields [sampleQ 1] 1 editUpd rfl (by decide)

/-! ### C1: the Image-to-Page Mapper -/

/-- C1 counterexample: `a_page3_drawing1.png` follows the Extractor's naming
convention (kind `drawing`, page 3), yet the mapper's pattern
`_page(\d+)_img\d+` does not match it, so the mapper output is empty — the
file appears on no page's list, contradicting the claim that every
convention-following filename is mapped to its page. -/
theorem C1_counterexample :
    drawingImageName "a".data 3 1 "png".data = "a_page3_drawing1.png".data ∧
    map_images_to_pages [] ["a_page3_drawing1.png".data] = [] := by
  exact ⟨rfl, rfl⟩

theorem pagesGet_addImage_self (m : List (Nat × List Str)) (n : Nat) (f : Str) :
    pagesGet (addImage m n f) n = pagesGet m n ++ [f] := by
  induction m with
  | nil => simp [addImage, pagesGet, List.find?]
  | cons e t ih =>
    obtain ⟨k, v⟩ := e
    by_cases h : k = n
    · subst h; simp [addImage, pagesGet, List.find?]
    · simp [addImage, pagesGet, List.find?, h] at ih ⊢
      exact ih

theorem pagesGet_addImage_ne (m : List (Nat × List Str)) (n' n : Nat) (f : Str)
    (h : n' ≠ n) : pagesGet (addImage m n' f) n = pagesGet m n := by
  induction m with
  | nil => simp [addImage, pagesGet, List.find?, h]
  | cons e t ih =>
    obtain ⟨k, v⟩ := e
    by_cases hk : k = n'
    · subst hk; simp [addImage, pagesGet, List.find?, h]
    · by_cases hkn : k = n
      · subst hkn; simp [addImage, pagesGet, List.find?, hk]
      · simp [addImage, pagesGet, List.find?, hk, hkn] at ih ⊢
        exact ih

theorem mapImagesFold (l : List Str) (m : List (Nat × List Str)) (n : Nat) :
    pagesGet (l.foldl (fun m f =>
      match imgPage f with
      | some k => addImage m k f
      | none => m) m) n =
    pagesGet m n ++ l.filter (fun f => imgPage f == some n) := by
  induction l generalizing m with
  | nil => simp
  | cons f t ih =>
    cases hf : imgPage f with
    | none => simp [List.foldl_cons, hf, ih]
    | some k =>
      by_cases hk : k = n
      · subst hk
        simp [List.foldl_cons, hf, ih, pagesGet_addImage_self]
      · have : (imgPage f == some n) = false := by simp [hf, hk]
        simp [List.foldl_cons, hf, ih, pagesGet_addImage_ne m k n f hk,
          List.filter_cons, this, hk]

/-- C1 amended: the mapper keeps exactly the filenames in which the pattern
`_page<digits>_img<digit>` occurs; the list stored for page `n` is the
subsequence of the input filenames whose encoded page is `n`, in input
(extraction) order, and every other filename — including the Extractor's
`drawing` and `fullpage` kinds — contributes nothing. -/
theorem C1_mapper_page_lists (text : Str) (imgs : List Str) (n : Nat) :
    pagesGet (map_images_to_pages text imgs) n =
      imgs.filter (fun f => imgPage f == some n) := by
  have h := mapImagesFold imgs [] n
  simpa [map_images_to_pages, pagesGet] using h

/-! ### C4: classifier precedence -/

/-- C4: a stem carrying both a multi-select cue and a drag cue classifies as
`multiple_choice_multiple` for either value of the image flag, whenever the
choices do not trigger the yes/no rule (rule 2 precedes rule 3). -/
theorem C4_multi_before_drag (stem : Str) (choices : List (Char × Str)) (b : Bool)
    (hm : multi_keywords.any (fun k => containsSub (lowerS stem) k) = true)
    (_hd : drag_keywords.any (fun k => containsSub (lowerS stem) k) = true)
    (hy : ¬ (choices.length = 2 ∧
      (containsSub (lowerS (joinSpace (choices.map Prod.snd))) "yes".data ∧
       containsSub (lowerS (joinSpace (choices.map Prod.snd))) "no".data))) :
    detect_question_type stem choices b = "multiple_choice_multiple".data := by
  unfold detect_question_type
  rw [if_neg hy, if_pos hm]

/-- Witness for C4: a concrete stem containing "each correct selection" and
"drag", with three choices, classifies as multi-select with and without an
image. -/
theorem C4_multi_witness :
    (multi_keywords.any (fun k => containsSub
      (lowerS "Drag the items. Each correct selection is worth one point.".data) k) = true) ∧
    detect_question_type "Drag the items. Each correct selection is worth one point.".data
      [('A', "One".data), ('B', "Two".data), ('C', "Three".data)] true =
      "multiple_choice_multiple".data ∧
    detect_question_type "Drag the items. Each correct selection is worth one point.".data
      [('A', "One".data), ('B', "Two".data), ('C', "Three".data)] false =
      "multiple_choice_multiple".data :=
  ⟨by decide,
   C4_multi_before_drag _ _ true (by decide) (by decide) (by decide),
   C4_multi_before_drag _ _ false (by decide) (by decide) (by decide)⟩

/-! ### C2, C3: choice keys -/



theorem choiceMatchAt_upper {pr : Option Char} {s : Str} {a : Char} {b : Str}
    {pr2 : Option Char} {r : Str}
    (h : choiceMatchAt pr s = some (a, b, pr2, r)) : upperB a = true := by
  unfold choiceMatchAt at h
  split at h
  · rcases s with _ | ⟨x, _ | ⟨d, rest⟩⟩
    · simp at h
    · simp at h
    · simp only at h
      split at h
      · rename_i hcond
        split at h
        · cases h; exact (Bool.and_elim_left hcond)
        · split at h
          · cases h; exact (Bool.and_elim_left hcond)
          · cases h
      · cases h
  · cases h

theorem choiceFindAux_succ (n : Nat) (pr : Option Char) (s : Str) :
    choiceFindAux (n + 1) pr s =
      match choiceMatchAt pr s with
      | some (a, b, pr2, rest) => (a, b) :: choiceFindAux n pr2 rest
      | none =>
        match s with
        | [] => []
        | c :: t => choiceFindAux n (some c) t := rfl

theorem choiceFindAux_upper (fuel : Nat) :
    ∀ (pr : Option Char) (s : Str) (p : Char × Str),
      p ∈ choiceFindAux fuel pr s → upperB p.1 = true := by
  induction fuel with
  | zero => intro pr s p hp; simp [choiceFindAux] at hp
  | succ n ih =>
    intro pr s p hp
    rw [choiceFindAux_succ] at hp
    cases hm : choiceMatchAt pr s with
    | some res =>
      obtain ⟨a, b, pr2, rest⟩ := res
      rw [hm] at hp
      rcases List.mem_cons.mp hp with h | h
      · subst h; exact choiceMatchAt_upper hm
      · exact ih pr2 rest p h
    | none =>
      rw [hm] at hp
      rcases s with _ | ⟨c, t⟩
      · simp at hp
      · exact ih (some c) t p hp

theorem assocSet_keys (m : List (Char × Str)) (a : Char) (v : Str) :
    List.map Prod.fst (assocSet m a v) =
      if a ∈ List.map Prod.fst m then List.map Prod.fst m
      else List.map Prod.fst m ++ [a] := by
  induction m with
  | nil => simp [assocSet]
  | cons e t ih =>
    obtain ⟨k, w⟩ := e
    by_cases hk : k = a
    · subst hk; simp [assocSet]
    · have hne : ¬ a = k := fun hh => hk hh.symm
      by_cases hmem : a ∈ List.map Prod.fst t
      · simp [assocSet, hk, ih, hmem, hne]
      · simp [assocSet, hk, ih, hmem, hne]

theorem assocSet_keys_mem (m : List (Char × Str)) (a : Char) (v : Str) :
    a ∈ List.map Prod.fst (assocSet m a v) := by
  rw [assocSet_keys]
  split
  · assumption
  · simp

theorem assocSet_keys_mono (m : List (Char × Str)) (b : Char) (v : Str) (a : Char)
    (h : a ∈ List.map Prod.fst m) : a ∈ List.map Prod.fst (assocSet m b v) := by
  rw [assocSet_keys]
  split
  · exact h
  · exact List.mem_append_left _ h

theorem assocSet_nodup (m : List (Char × Str)) (a : Char) (v : Str)
    (h : (List.map Prod.fst m).Nodup) :
    (List.map Prod.fst (assocSet m a v)).Nodup := by
  rw [assocSet_keys]
  split
  · exact h
  · rename_i hmem
    simp [List.nodup_append, h, hmem]

theorem assocSet_all_upper (m : List (Char × Str)) (a : Char) (v : Str)
    (ha : upperB a = true) (h : m.all (fun p => upperB p.1) = true) :
    (assocSet m a v).all (fun p => upperB p.1) = true := by
  induction m with
  | nil => simp [assocSet, ha]
  | cons e t ih =>
    obtain ⟨k, w⟩ := e
    simp only [List.all_cons, Bool.and_eq_true] at h
    by_cases hk : k = a
    · subst hk; simp [assocSet, ha, h.2]
    · simp [assocSet, hk, h.1, ih h.2]

theorem foldChoices_inv (L : List (Char × Str)) :
    ∀ m : List (Char × Str), (∀ p ∈ L, upperB p.1 = true) →
      (List.map Prod.fst m).Nodup → m.all (fun p => upperB p.1) = true →
      (List.map Prod.fst
          (L.foldl (fun m p => assocSet m p.1 (cleanChoice p.2)) m)).Nodup ∧
      (L.foldl (fun m p => assocSet m p.1 (cleanChoice p.2)) m).all
        (fun p => upperB p.1) = true := by
  induction L with
  | nil => intro m _ h1 h2; exact ⟨h1, h2⟩
  | cons p t ih =>
    intro m hL h1 h2
    have hp : upperB p.1 = true := hL p (List.mem_cons_self p t)
    exact ih (assocSet m p.1 (cleanChoice p.2))
      (fun q hq => hL q (List.mem_cons_of_mem p hq))
      (assocSet_nodup m p.1 (cleanChoice p.2) h1)
      (assocSet_all_upper m p.1 (cleanChoice p.2) hp h2)

/-- C2 counterexample: on the choices region `"B. hello"` the extractor
returns the key set `{'B'}`, which is not a contiguous run starting at 'A'. -/
theorem C2_counterexample :
    extract_choices "B. hello".data = [('B', "hello".data)] ∧
    isContiguousFromA (List.map Prod.fst (extract_choices "B. hello".data)) = false := by
  exact ⟨rfl, rfl⟩

theorem foldChoices_keys_eq (L : List (Char × Str)) :
    ∀ m : List (Char × Str),
      List.map Prod.fst (L.foldl (fun m p => assocSet m p.1 (cleanChoice p.2)) m) =
        (L.map Prod.fst).foldl (fun ks a => if a ∈ ks then ks else ks ++ [a])
          (List.map Prod.fst m) := by
  induction L with
  | nil => intro m; rfl
  | cons p t ih =>
    intro m
    rw [List.foldl_cons, ih, List.map_cons, List.foldl_cons, assocSet_keys]

/-- C2 amended: the key list of `extract_choices` is exactly the sequence of
matched letters deduplicated to their first occurrences (Python dict
insertion order) — keys appear in document order of their first match, are
uppercase and pairwise distinct — but it starts at whatever letters the
region contains, not necessarily a gapless run from 'A'. -/
theorem C2_keys_characterization (text : Str) :
    List.map Prod.fst (extract_choices text) =
      pyDictKeys (List.map Prod.fst (choiceFind text)) ∧
    (List.map Prod.fst (extract_choices text)).Nodup ∧
    (extract_choices text).all (fun p => upperB p.1) = true := by
  refine ⟨?_, ?_⟩
  · unfold extract_choices pyDictKeys
    simpa using foldChoices_keys_eq (choiceFind text) []
  · unfold extract_choices
    exact foldChoices_inv (choiceFind text) []
      (fun p hp => choiceFindAux_upper (text.length + 1) none text p hp)
      (by simp) (by simp)

theorem foldChoices_keys (L : List (Char × Str)) :
    ∀ (m : List (Char × Str)) (a : Char), a ∈ List.map Prod.fst m →
      a ∈ List.map Prod.fst (L.foldl (fun m p => assocSet m p.1 (cleanChoice p.2)) m) := by
  induction L with
  | nil => intro m a h; exact h
  | cons p t ih =>
    intro m a h
    exact ih _ a (assocSet_keys_mono m p.1 (cleanChoice p.2) a h)

theorem foldChoices_elem (L : List (Char × Str)) :
    ∀ (m : List (Char × Str)) (p : Char × Str), p ∈ L →
      p.1 ∈ List.map Prod.fst (L.foldl (fun m p => assocSet m p.1 (cleanChoice p.2)) m) := by
  induction L with
  | nil => intro m p h; simp at h
  | cons q t ih =>
    intro m p hp
    rcases List.mem_cons.mp hp with h | h
    · subst h
      exact foldChoices_keys t _ p.1 (assocSet_keys_mem m p.1 (cleanChoice p.2))
    · exact ih _ p h

/-- C3 counterexample: on `"A. ExamTopics"` the match for letter 'A' has the
non-empty body `"ExamTopics"`, the cleaning steps erase it completely, and
the stored value is the empty string — there is no fallback to the original
matched text. -/
theorem C3_counterexample :
    choiceFind "A. ExamTopics".data = [('A', "ExamTopics".data)] ∧
    extract_choices "A. ExamTopics".data = [('A', [])] := by
  exact ⟨rfl, rfl⟩

/-- C3 amended: every matched choice letter is a key of the result (a
matched choice is never discarded), though its stored text may be the empty
string when cleaning erases it. -/
theorem C3_matched_letters_kept (text : Str) :
    (choiceFind text).all
      (fun p => (extract_choices text).any (fun q => q.1 = p.1)) = true := by
  rw [List.all_eq_true]
  intro p hp
  have h := foldChoices_elem (choiceFind text) [] p hp
  rw [List.any_eq_true]
  rcases List.mem_map.mp h with ⟨q, hq, hq1⟩
  exact ⟨q, hq, by simp [hq1]⟩

/-! ### C7: stem truncation at answer markers -/

theorem strFind_cons (p : Str) (c : Char) (t : Str) :
    strFind p (c :: t) =
      if p.isPrefixOf (c :: t) then some 0 else (strFind p t).map (· + 1) := rfl

theorem containsSub_nil (p : Str) : containsSub [] p = p.isPrefixOf [] := by
  unfold containsSub strFind
  by_cases hp : p.isPrefixOf ([] : Str) <;> simp [hp]

theorem containsSub_cons (p : Str) (c : Char) (t : Str) :
    containsSub (c :: t) p = (p.isPrefixOf (c :: t) || containsSub t p) := by
  unfold containsSub
  rw [strFind_cons]
  by_cases hp : p.isPrefixOf (c :: t) <;> simp [hp]

theorem containsSub_iff_occurs (s p : Str) : containsSub s p = true ↔ p <:+: s := by
  induction s with
  | nil =>
    rw [containsSub_nil, List.isPrefixOf_iff_prefix, List.infix_nil]
    constructor
    · intro h; exact List.prefix_nil.mp h
    · intro h; subst h; exact List.nil_prefix
  | cons c t ih =>
    rw [containsSub_cons, Bool.or_eq_true, List.infix_cons_iff, ih,
      List.isPrefixOf_iff_prefix]

theorem strFind_take_none (p : Str) (hp : p ≠ []) :
    ∀ (s : Str) (i : Nat), strFind p s = some i → strFind p (s.take i) = none := by
  have hnil : ¬ p.isPrefixOf ([] : Str) := by
    intro hpre
    exact hp (List.prefix_nil.mp (List.isPrefixOf_iff_prefix.mp hpre))
  intro s
  induction s with
  | nil =>
    intro i h
    simp [strFind, hnil] at h
  | cons c t ih =>
    intro i h
    by_cases hpre : p.isPrefixOf (c :: t)
    · have heq : strFind p (c :: t) = some 0 := by simp [strFind, hpre]
      rw [heq] at h
      cases h
      simp [strFind, hnil]
    · have heq : strFind p (c :: t) = (strFind p t).map (· + 1) := by
        simp [strFind, hpre]
      rw [heq] at h
      rcases Option.map_eq_some'.mp h with ⟨j, hj, hij⟩
      subst hij
      rw [List.take_succ_cons]
      have hpre2 : ¬ p.isPrefixOf (c :: t.take j) := by
        intro hpre2
        apply hpre
        apply List.isPrefixOf_iff_prefix.mpr
        have h1 : p <+: c :: t.take j := List.isPrefixOf_iff_prefix.mp hpre2
        have h2 : c :: t.take j <+: c :: t := by
          obtain ⟨w, hw⟩ := List.take_prefix j t
          exact ⟨w, by simp [hw]⟩
        exact h1.trans h2
      simp [strFind, hpre2, ih j hj]

theorem rstrip_front (t : Str) : rstrip t <+: t := by
  have h : (t.reverse.dropWhile wsb) <:+ t.reverse := List.dropWhile_suffix wsb
  have h2 := List.reverse_prefix.mpr h
  rwa [List.reverse_reverse] at h2

theorem pyStrip_within (t : Str) : pyStrip t <:+: t := by
  have h1 : pyStrip t <:+ rstrip t := List.dropWhile_suffix wsb
  exact h1.isInfix.trans (rstrip_front t).isInfix

theorem truncAtMarkers_cons (m : Str) (ms : List Str) (s : Str) :
    truncAtMarkers (m :: ms) s =
      match strFind m s with
      | some i => pyStrip (s.take i)
      | none => truncAtMarkers ms s := rfl

theorem truncAtMarkers_within : ∀ (ms : List Str) (s : Str), truncAtMarkers ms s <:+: s := by
  intro ms
  induction ms with
  | nil => intro s; exact List.infix_refl s
  | cons m t ih =>
    intro s
    rw [truncAtMarkers_cons]
    cases hf : strFind m s with
    | some i => exact (pyStrip_within (s.take i)).trans (List.take_prefix i s).isInfix
    | none => exact ih s

/-- C7 counterexample: in the stem region
`"Discussion Summary X Suggested Answer: B"` the earliest marker is
`"Discussion Summary"` at index 0, yet the assembler truncates at
`"Suggested Answer:"` (the first marker in its fixed list order, at index
21), so the emitted stem still contains text at and after the earliest
marker — including the marker itself. -/
theorem C7_counterexample :
    strFind "Discussion Summary".data
      "Discussion Summary X Suggested Answer: B".data = some 0 ∧
    strFind "Suggested Answer:".data
      "Discussion Summary X Suggested Answer: B".data = some 21 ∧
    cleanStem "Discussion Summary X Suggested Answer: B".data =
      "Discussion Summary X".data ∧
    containsSub (cleanStem "Discussion Summary X Suggested Answer: B".data)
      "Discussion Summary".data = true := by
  exact ⟨rfl, rfl, rfl, rfl⟩

theorem truncAtMarkers_no_suggested_leak (s : Str) :
    containsSub (truncAtMarkers answer_markers s) "Suggested Answer:".data = false := by
  have hmarkers : answer_markers =
      "Suggested Answer:".data :: ["Discussion Summary".data,
        "AI Recommended Answer".data, "Web Recommended Answer".data,
        "Community Answer".data] := rfl
  rw [hmarkers, truncAtMarkers_cons]
  cases hf : strFind "Suggested Answer:".data s with
  | some i =>
    rw [← Bool.not_eq_true]
    intro hcon
    have h1 : "Suggested Answer:".data <:+: pyStrip (s.take i) :=
      (containsSub_iff_occurs _ _).mp hcon
    have h2 : "Suggested Answer:".data <:+: s.take i :=
      h1.trans (pyStrip_within (s.take i))
    have h3 : containsSub (s.take i) "Suggested Answer:".data = true :=
      (containsSub_iff_occurs _ _).mpr h2
    have h4 := strFind_take_none "Suggested Answer:".data (by simp) s i hf
    simp [containsSub, h4] at h3
  | none =>
    rw [← Bool.not_eq_true]
    intro hcon
    have h1 : "Suggested Answer:".data <:+: truncAtMarkers _ s :=
      (containsSub_iff_occurs _ _).mp hcon
    have h2 : "Suggested Answer:".data <:+: s :=
      h1.trans (truncAtMarkers_within _ s)
    have h3 := (containsSub_iff_occurs s "Suggested Answer:".data).mpr h2
    simp [containsSub, hf] at h3

theorem truncAtMarkers_prefix_form : ∀ (ms : List Str) (s : Str),
    ∃ k, truncAtMarkers ms s = s.take k ∨ truncAtMarkers ms s = pyStrip (s.take k) := by
  intro ms
  induction ms with
  | nil => intro s; exact ⟨s.length, Or.inl (List.take_length s).symm⟩
  | cons m t ih =>
    intro s
    rw [truncAtMarkers_cons]
    cases hf : strFind m s with
    | some i => exact ⟨i, Or.inr rfl⟩
    | none => exact ih s

/-- C7 amended: the truncation step only keeps a (possibly stripped) prefix
`s.take k` of the stem, and because `"Suggested Answer:"` is the first
marker tried, `k` never exceeds the earliest occurrence of
`"Suggested Answer:"` — no text at or after that occurrence ever survives,
and the marker itself never appears in the result; for the other markers
this holds only when no earlier-listed marker occurs later in the text. -/
theorem C7_truncation_keeps_presuggested_prefix (s : Str) :
    ∃ k, (truncAtMarkers answer_markers s = s.take k ∨
          truncAtMarkers answer_markers s = pyStrip (s.take k)) ∧
      (∀ i, strFind "Suggested Answer:".data s = some i → k ≤ i) ∧
      containsSub (truncAtMarkers answer_markers s) "Suggested Answer:".data = false := by
  have hnoleak := truncAtMarkers_no_suggested_leak s
  have hmarkers : answer_markers =
      "Suggested Answer:".data :: ["Discussion Summary".data,
        "AI Recommended Answer".data, "Web Recommended Answer".data,
        "Community Answer".data] := rfl
  rw [hmarkers] at hnoleak ⊢
  rw [truncAtMarkers_cons] at hnoleak ⊢
  cases hf : strFind "Suggested Answer:".data s with
  | some i =>
    rw [hf] at hnoleak
    refine ⟨i, Or.inr rfl, ?_, hnoleak⟩
    intro j hj
    cases hj
    exact Nat.le_refl i
  | none =>
    rw [hf] at hnoleak
    obtain ⟨k, hk⟩ := truncAtMarkers_prefix_form ["Discussion Summary".data,
      "AI Recommended Answer".data, "Web Recommended Answer".data,
      "Community Answer".data] s
    refine ⟨k, hk, ?_, hnoleak⟩
    intro j hj
    simp at hj

/-- Witness for the amended C7 on a concrete stem containing the marker. -/
theorem C7_truncation_prefix_witness :
    ∃ k, (truncAtMarkers answer_markers "What is X? Suggested Answer: B".data =
            "What is X? Suggested Answer: B".data.take k ∨
          truncAtMarkers answer_markers "What is X? Suggested Answer: B".data =
            pyStrip ("What is X? Suggested Answer: B".data.take k)) ∧
      (∀ i, strFind "Suggested Answer:".data
          "What is X? Suggested Answer: B".data = some i → k ≤ i) ∧
      containsSub (truncAtMarkers answer_markers "What is X? Suggested Answer: B".data)
        "Suggested Answer:".data = false :=
  C7_truncation_keeps_presuggested_prefix "What is X? Suggested Answer: B".data

/-! ### Consumption bounds for the pattern engine

Every successful match consumes at least `minLen re` characters, and each
substitution pass either returns its input unchanged or a strictly shorter
string (the replacement being shorter than any match).  These bounds drive
the only-if direction of the idempotence characterization. -/

theorem starGo_cons (p : Char → Bool) (k : Option Char → Str → Option (Option Char × Str))
    (pr : Option Char) (c : Char) (t : Str) :
    starGo p k pr (c :: t) =
      if p c then
        match starGo p k (some c) t with
        | some r => some r
        | none => k pr (c :: t)
      else k pr (c :: t) := rfl

theorem starLo_cons (p : Char → Bool) (k : Option Char → Str → Option (Option Char × Str))
    (pr : Option Char) (c : Char) (t : Str) :
    starLo p k pr (c :: t) =
      match k pr (c :: t) with
      | some r => some r
      | none => if p c then starLo p k (some c) t else none := rfl

theorem starGo_sound (p : Char → Bool) (k : Option Char → Str → Option (Option Char × Str)) :
    ∀ (s : Str) (pr : Option Char) (r : Option Char × Str), starGo p k pr s = some r →
      ∃ pr' s', k pr' s' = some r ∧ s'.length ≤ s.length := by
  intro s
  induction s with
  | nil => intro pr r h; exact ⟨pr, [], h, Nat.le_refl _⟩
  | cons c t ih =>
    intro pr r h
    rw [starGo_cons] at h
    by_cases hc : p c
    · rw [if_pos hc] at h
      cases hm : starGo p k (some c) t with
      | some r2 =>
        rw [hm] at h
        cases h
        obtain ⟨pr', s', hk, hle⟩ := ih (some c) _ hm
        exact ⟨pr', s', hk, hle.trans (Nat.le_succ _)⟩
      | none =>
        rw [hm] at h
        exact ⟨pr, c :: t, h, Nat.le_refl _⟩
    · rw [if_neg hc] at h
      exact ⟨pr, c :: t, h, Nat.le_refl _⟩

theorem starLo_sound (p : Char → Bool) (k : Option Char → Str → Option (Option Char × Str)) :
    ∀ (s : Str) (pr : Option Char) (r : Option Char × Str), starLo p k pr s = some r →
      ∃ pr' s', k pr' s' = some r ∧ s'.length ≤ s.length := by
  intro s
  induction s with
  | nil => intro pr r h; exact ⟨pr, [], h, Nat.le_refl _⟩
  | cons c t ih =>
    intro pr r h
    rw [starLo_cons] at h
    cases hm : k pr (c :: t) with
    | some r2 =>
      rw [hm] at h
      cases h
      exact ⟨pr, c :: t, hm, Nat.le_refl _⟩
    | none =>
      rw [hm] at h
      by_cases hc : p c
      · rw [if_pos hc] at h
        obtain ⟨pr', s', hk, hle⟩ := ih (some c) r h
        exact ⟨pr', s', hk, hle.trans (Nat.le_succ _)⟩
      · rw [if_neg hc] at h
        cases h

theorem litGo_sound (ci : Bool) :
    ∀ (l : Str) (pr : Option Char) (s : Str)
      (k : Option Char → Str → Option (Option Char × Str)) (r : Option Char × Str),
      litGo ci l pr s k = some r →
      ∃ pr' s', k pr' s' = some r ∧ s'.length + l.length ≤ s.length := by
  intro l
  induction l with
  | nil =>
    intro pr s k r h
    exact ⟨pr, s, h, by simp⟩
  | cons a ls ih =>
    intro pr s k r h
    cases s with
    | nil => cases h
    | cons c t =>
      have hstep : litGo ci (a :: ls) pr (c :: t) k =
          if (if ci then a.toLower = c.toLower else a = c) then
            litGo ci ls (some c) t k
          else none := rfl
      rw [hstep] at h
      by_cases hg : (if ci then a.toLower = c.toLower else a = c)
      · rw [if_pos hg] at h
        obtain ⟨pr', s', hk, hle⟩ := ih (some c) t k r h
        refine ⟨pr', s', hk, ?_⟩
        simp only [List.length_cons]
        omega
      · rw [if_neg hg] at h
        cases h

theorem mre_sound (re : RE) :
    ∀ (pr : Option Char) (s : Str)
      (k : Option Char → Str → Option (Option Char × Str)) (r : Option Char × Str),
      mre re pr s k = some r →
      ∃ pr' s', k pr' s' = some r ∧ s'.length + minLen re ≤ s.length := by
  induction re with
  | eps =>
    intro pr s k r h
    exact ⟨pr, s, h, by simp [minLen]⟩
  | cls p =>
    intro pr s k r h
    cases s with
    | nil => cases h
    | cons c t =>
      have hstep : mre (.cls p) pr (c :: t) k = if p c then k (some c) t else none := rfl
      rw [hstep] at h
      by_cases hc : p c
      · rw [if_pos hc] at h
        exact ⟨some c, t, h, by simp [minLen]⟩
      · rw [if_neg hc] at h
        cases h
  | lit l =>
    intro pr s k r h
    obtain ⟨pr', s', hk, hle⟩ := litGo_sound false l pr s k r h
    exact ⟨pr', s', hk, by simpa [minLen] using hle⟩
  | litCI l =>
    intro pr s k r h
    obtain ⟨pr', s', hk, hle⟩ := litGo_sound true l pr s k r h
    exact ⟨pr', s', hk, by simpa [minLen] using hle⟩
  | seq a b iha ihb =>
    intro pr s k r h
    obtain ⟨pr1, s1, hk1, hle1⟩ := iha pr s _ r h
    obtain ⟨pr2, s2, hk2, hle2⟩ := ihb pr1 s1 k r hk1
    refine ⟨pr2, s2, hk2, ?_⟩
    simp only [minLen]
    omega
  | alt a b iha ihb =>
    intro pr s k r h
    have hstep : mre (.alt a b) pr s k =
        match mre a pr s k with
        | some r => some r
        | none => mre b pr s k := rfl
    rw [hstep] at h
    cases hm : mre a pr s k with
    | some r2 =>
      rw [hm] at h
      cases h
      obtain ⟨pr', s', hk, hle⟩ := iha pr s k _ hm
      refine ⟨pr', s', hk, ?_⟩
      have : minLen (.alt a b) ≤ minLen a := Nat.min_le_left _ _
      omega
    | none =>
      rw [hm] at h
      obtain ⟨pr', s', hk, hle⟩ := ihb pr s k r h
      refine ⟨pr', s', hk, ?_⟩
      have : minLen (.alt a b) ≤ minLen b := Nat.min_le_right _ _
      omega
  | starG p =>
    intro pr s k r h
    obtain ⟨pr', s', hk, hle⟩ := starGo_sound p k s pr r h
    exact ⟨pr', s', hk, by simpa [minLen] using hle⟩
  | starL p =>
    intro pr s k r h
    obtain ⟨pr', s', hk, hle⟩ := starLo_sound p k s pr r h
    exact ⟨pr', s', hk, by simpa [minLen] using hle⟩
  | plusG p =>
    intro pr s k r h
    cases s with
    | nil => cases h
    | cons c t =>
      have hstep : mre (.plusG p) pr (c :: t) k =
          if p c then starGo p k (some c) t else none := rfl
      rw [hstep] at h
      by_cases hc : p c
      · rw [if_pos hc] at h
        obtain ⟨pr', s', hk, hle⟩ := starGo_sound p k t (some c) r h
        refine ⟨pr', s', hk, ?_⟩
        simp only [minLen, List.length_cons]
        omega
      · rw [if_neg hc] at h
        cases h
  | plusL p =>
    intro pr s k r h
    cases s with
    | nil => cases h
    | cons c t =>
      have hstep : mre (.plusL p) pr (c :: t) k =
          if p c then starLo p k (some c) t else none := rfl
      rw [hstep] at h
      by_cases hc : p c
      · rw [if_pos hc] at h
        obtain ⟨pr', s', hk, hle⟩ := starLo_sound p k t (some c) r h
        refine ⟨pr', s', hk, ?_⟩
        simp only [minLen, List.length_cons]
        omega
      · rw [if_neg hc] at h
        cases h
  | opt r0 ih =>
    intro pr s k r h
    have hstep : mre (.opt r0) pr s k =
        match mre r0 pr s k with
        | some v => some v
        | none => k pr s := rfl
    rw [hstep] at h
    cases hm : mre r0 pr s k with
    | some r2 =>
      rw [hm] at h
      cases h
      obtain ⟨pr', s', hk, hle⟩ := ih pr s k _ hm
      refine ⟨pr', s', hk, ?_⟩
      simp only [minLen]
      omega
    | none =>
      rw [hm] at h
      exact ⟨pr, s, h, by simp [minLen]⟩
  | la r0 _ =>
    intro pr s k r h
    have hstep : mre (.la r0) pr s k =
        match mre r0 pr s (fun pr' s' => some (pr', s')) with
        | some _ => k pr s
        | none => none := rfl
    rw [hstep] at h
    cases hm : mre r0 pr s (fun pr' s' => some (pr', s')) with
    | some r2 =>
      rw [hm] at h
      exact ⟨pr, s, h, by simp [minLen]⟩
    | none =>
      rw [hm] at h
      cases h
  | bos =>
    intro pr s k r h
    have hstep : mre .bos pr s k = if pr = none then k pr s else none := rfl
    rw [hstep] at h
    by_cases hc : pr = none
    · rw [if_pos hc] at h
      exact ⟨pr, s, h, by simp [minLen]⟩
    · rw [if_neg hc] at h
      cases h
  | eol =>
    intro pr s k r h
    have hstep : mre .eol pr s k = if s = [] ∨ s = ['\n'] then k pr s else none := rfl
    rw [hstep] at h
    by_cases hc : s = [] ∨ s = ['\n']
    · rw [if_pos hc] at h
      exact ⟨pr, s, h, by simp [minLen]⟩
    · rw [if_neg hc] at h
      cases h
  | eos =>
    intro pr s k r h
    have hstep : mre .eos pr s k = if s = [] then k pr s else none := rfl
    rw [hstep] at h
    by_cases hc : s = []
    · rw [if_pos hc] at h
      exact ⟨pr, s, h, by simp [minLen]⟩
    · rw [if_neg hc] at h
      cases h

theorem reTry_minLen (re : RE) (pr : Option Char) (s : Str) (pr' : Option Char)
    (rest : Str) (h : reTry re pr s = some (pr', rest)) :
    rest.length + minLen re ≤ s.length := by
  obtain ⟨pr2, s2, hk, hle⟩ := mre_sound re pr s _ _ h
  cases hk
  exact hle

theorem subAllAux_succ (re : RE) (repl : Str) (n : Nat) (pr : Option Char) (s : Str) :
    subAllAux re repl (n + 1) pr s =
      match reTry re pr s with
      | some (pr', rest) =>
        if rest.length < s.length then repl ++ subAllAux re repl n pr' rest
        else
          match s with
          | [] => []
          | c :: t => c :: subAllAux re repl n (some c) t
      | none =>
        match s with
        | [] => []
        | c :: t => c :: subAllAux re repl n (some c) t := rfl

/-- Each substitution pass with a replacement shorter than any possible
match either fixes the string or strictly shortens it. -/
theorem subAllAux_fix_or_shrink (re : RE) (repl : Str) (hr : repl.length < minLen re) :
    ∀ (fuel : Nat) (pr : Option Char) (s : Str),
      subAllAux re repl fuel pr s = s ∨
        (subAllAux re repl fuel pr s).length < s.length := by
  intro fuel
  induction fuel with
  | zero => intro pr s; exact Or.inl rfl
  | succ n ih =>
    intro pr s
    cases hm : reTry re pr s with
    | some res =>
      obtain ⟨pr', rest⟩ := res
      by_cases hlt : rest.length < s.length
      · have heq : subAllAux re repl (n + 1) pr s =
            repl ++ subAllAux re repl n pr' rest := by
          simp only [subAllAux_succ, hm, if_pos hlt]
        rw [heq]
        right
        have hc := reTry_minLen re pr s pr' rest hm
        have hrec : (subAllAux re repl n pr' rest).length ≤ rest.length := by
          rcases ih pr' rest with h | h
          · rw [h]
          · exact Nat.le_of_lt h
        simp only [List.length_append]
        omega
      · cases s with
        | nil => exact Or.inl (by simp only [subAllAux_succ, hm, if_neg hlt])
        | cons c t =>
          have heq : subAllAux re repl (n + 1) pr (c :: t) =
              c :: subAllAux re repl n (some c) t := by
            simp only [subAllAux_succ, hm, if_neg hlt]
          rw [heq]
          rcases ih (some c) t with h | h
          · exact Or.inl (by rw [h])
          · right; simp only [List.length_cons]; omega
    | none =>
      cases s with
      | nil => exact Or.inl (by simp only [subAllAux_succ, hm])
      | cons c t =>
        have heq : subAllAux re repl (n + 1) pr (c :: t) =
            c :: subAllAux re repl n (some c) t := by
          simp only [subAllAux_succ, hm]
        rw [heq]
        rcases ih (some c) t with h | h
        · exact Or.inl (by rw [h])
        · right; simp only [List.length_cons]; omega

theorem starGo_run (p : Char → Bool) (k : Option Char → Str → Option (Option Char × Str)) :
    ∀ (s : Str) (pr : Option Char) (r : Option Char × Str), starGo p k pr s = some r →
      ∃ u s', s = u ++ s' ∧ u.all p = true ∧ ∃ pr', k pr' s' = some r := by
  intro s
  induction s with
  | nil => intro pr r h; exact ⟨[], [], rfl, rfl, pr, h⟩
  | cons c t ih =>
    intro pr r h
    rw [starGo_cons] at h
    by_cases hc : p c
    · rw [if_pos hc] at h
      cases hm : starGo p k (some c) t with
      | some r2 =>
        rw [hm] at h
        cases h
        obtain ⟨u, s', ht, hall, pr', hk⟩ := ih (some c) _ hm
        exact ⟨c :: u, s', by simp [ht], by simp [hc, hall], pr', hk⟩
      | none =>
        rw [hm] at h
        exact ⟨[], c :: t, rfl, rfl, pr, h⟩
    · rw [if_neg hc] at h
      exact ⟨[], c :: t, rfl, rfl, pr, h⟩

theorem reTry_plusG_run (p : Char → Bool) (pr : Option Char) (s : Str)
    (pr' : Option Char) (rest : Str)
    (h : reTry (.plusG p) pr s = some (pr', rest)) :
    ∃ u, u ≠ [] ∧ u.all p = true ∧ s = u ++ rest := by
  cases s with
  | nil => cases h
  | cons c t =>
    have hstep : reTry (.plusG p) pr (c :: t) =
        if p c then starGo p (fun pr' s' => some (pr', s')) (some c) t else none := rfl
    rw [hstep] at h
    by_cases hc : p c
    · rw [if_pos hc] at h
      obtain ⟨u, s', ht, hall, pr2, hk⟩ := starGo_run p _ t (some c) _ h
      have hs' : s' = rest := by cases hk; rfl
      subst hs'
      exact ⟨c :: u, by simp, by simp [hc, hall], by simp [ht]⟩
    · rw [if_neg hc] at h
      cases h

/-- The space-collapsing rule `' +' -> ' '` also fixes or strictly shortens:
a match of length one is a single space replaced by itself. -/
theorem subPlusSingle_fix_or_shrink (p : Char → Bool) (d : Char)
    (hd : ∀ c, p c = true → c = d) :
    ∀ (fuel : Nat) (pr : Option Char) (s : Str),
      subAllAux (.plusG p) [d] fuel pr s = s ∨
        (subAllAux (.plusG p) [d] fuel pr s).length < s.length := by
  intro fuel
  induction fuel with
  | zero => intro pr s; exact Or.inl rfl
  | succ n ih =>
    intro pr s
    cases hm : reTry (.plusG p) pr s with
    | some res =>
      obtain ⟨pr', rest⟩ := res
      by_cases hlt : rest.length < s.length
      · have heq : subAllAux (.plusG p) [d] (n + 1) pr s =
            d :: subAllAux (.plusG p) [d] n pr' rest := by
          simp only [subAllAux_succ, hm, if_pos hlt]
          rfl
        rw [heq]
        obtain ⟨u, hne, hall, hs⟩ := reTry_plusG_run p pr s pr' rest hm
        cases u with
        | nil => exact absurd rfl hne
        | cons c u' =>
          have hcd : c = d := by
            apply hd
            simp only [List.all_cons, Bool.and_eq_true] at hall
            exact hall.1
          cases u' with
          | nil =>
            have hs2 : s = d :: rest := by
              rw [← hcd]
              simpa using hs
            rcases ih pr' rest with h | h
            · exact Or.inl (by rw [h, hs2])
            · right
              rw [hs2]
              simp only [List.length_cons]
              omega
          | cons e u'' =>
            right
            have hrec : (subAllAux (.plusG p) [d] n pr' rest).length ≤ rest.length := by
              rcases ih pr' rest with h | h
              · rw [h]
              · exact Nat.le_of_lt h
            have hlen : s.length = u''.length + 2 + rest.length := by
              rw [hs]; simp; omega
            simp only [List.length_cons]
            omega
      · cases s with
        | nil => exact Or.inl (by simp only [subAllAux_succ, hm, if_neg hlt])
        | cons c t =>
          have heq : subAllAux (.plusG p) [d] (n + 1) pr (c :: t) =
              c :: subAllAux (.plusG p) [d] n (some c) t := by
            simp only [subAllAux_succ, hm, if_neg hlt]
          rw [heq]
          rcases ih (some c) t with h | h
          · exact Or.inl (by rw [h])
          · right; simp only [List.length_cons]; omega
    | none =>
      cases s with
      | nil => exact Or.inl (by simp only [subAllAux_succ, hm])
      | cons c t =>
        have heq : subAllAux (.plusG p) [d] (n + 1) pr (c :: t) =
            c :: subAllAux (.plusG p) [d] n (some c) t := by
          simp only [subAllAux_succ, hm]
        rw [heq]
        rcases ih (some c) t with h | h
        · exact Or.inl (by rw [h])
        · right; simp only [List.length_cons]; omega

theorem pyStrip_fix_or_shrink (s : Str) :
    pyStrip s = s ∨ (pyStrip s).length < s.length := by
  have hin := pyStrip_within s
  have hle : (pyStrip s).length ≤ s.length := hin.length_le
  by_cases heq : (pyStrip s).length = s.length
  · exact Or.inl (hin.eq_of_length heq)
  · exact Or.inr (Nat.lt_of_le_of_ne hle heq)

/-- Composition preserves the fix-or-shrink property. -/
theorem fos_comp {f g : Str → Str}
    (hf : ∀ x, f x = x ∨ (f x).length < x.length)
    (hg : ∀ x, g x = x ∨ (g x).length < x.length) :
    ∀ x, g (f x) = x ∨ (g (f x)).length < x.length := by
  intro x
  rcases hf x with heq | hlt
  · rw [heq]; exact hg x
  · right
    rcases hg (f x) with heq2 | hlt2
    · rw [heq2]; exact hlt
    · exact Nat.lt_trans hlt2 hlt

/-- If a composite of two fix-or-shrink maps fixes `x`, both stages fix `x`. -/
theorem fos_split {f g : Str → Str}
    (hf : ∀ x, f x = x ∨ (f x).length < x.length)
    (hg : ∀ x, g x = x ∨ (g x).length < x.length)
    (x : Str) (h : g (f x) = x) : f x = x ∧ g x = x := by
  rcases hf x with heq | hlt
  · rw [heq] at h
    exact ⟨heq, h⟩
  · exfalso
    have hgle : (g (f x)).length ≤ (f x).length := by
      rcases hg (f x) with heq2 | hlt2
      · rw [heq2]
      · exact Nat.le_of_lt hlt2
    have := congrArg List.length h
    omega

theorem cleanRule1_fos (x : Str) :
    cleanRule1 x = x ∨ (cleanRule1 x).length < x.length :=
  subAllAux_fix_or_shrink _ _ (by decide) _ none x

theorem cleanRule2_fos (x : Str) :
    cleanRule2 x = x ∨ (cleanRule2 x).length < x.length :=
  subAllAux_fix_or_shrink _ _ (by decide) _ none x

theorem cleanRule3_fos (x : Str) :
    cleanRule3 x = x ∨ (cleanRule3 x).length < x.length :=
  subAllAux_fix_or_shrink _ _ (by decide) _ none x

theorem cleanRule4_fos (x : Str) :
    cleanRule4 x = x ∨ (cleanRule4 x).length < x.length :=
  subAllAux_fix_or_shrink _ _ (by decide) _ none x

theorem cleanRule5_fos (x : Str) :
    cleanRule5 x = x ∨ (cleanRule5 x).length < x.length :=
  subAllAux_fix_or_shrink _ _ (by decide) _ none x

theorem cleanRule6_fos (x : Str) :
    cleanRule6 x = x ∨ (cleanRule6 x).length < x.length :=
  subAllAux_fix_or_shrink _ _ (by decide) _ none x

theorem cleanRule7_fos (x : Str) :
    cleanRule7 x = x ∨ (cleanRule7 x).length < x.length :=
  subAllAux_fix_or_shrink _ _ (by decide) _ none x

theorem cleanRule8_fos (x : Str) :
    cleanRule8 x = x ∨ (cleanRule8 x).length < x.length :=
  subAllAux_fix_or_shrink _ _ (by decide) _ none x

theorem cleanRule9_fos (x : Str) :
    cleanRule9 x = x ∨ (cleanRule9 x).length < x.length :=
  subAllAux_fix_or_shrink _ _ (by decide) _ none x

theorem cleanRule10_fos (x : Str) :
    cleanRule10 x = x ∨ (cleanRule10 x).length < x.length :=
  subAllAux_fix_or_shrink _ _ (by decide) _ none x

theorem cleanRule11_fos (x : Str) :
    cleanRule11 x = x ∨ (cleanRule11 x).length < x.length :=
  subAllAux_fix_or_shrink _ _ (by decide) _ none x

theorem cleanRule12_fos (x : Str) :
    cleanRule12 x = x ∨ (cleanRule12 x).length < x.length :=
  subAllAux_fix_or_shrink _ _ (by decide) _ none x

theorem cleanRule13_fos (x : Str) :
    cleanRule13 x = x ∨ (cleanRule13 x).length < x.length :=
  subAllAux_fix_or_shrink _ _ (by decide) _ none x

theorem cleanRule14_fos (x : Str) :
    cleanRule14 x = x ∨ (cleanRule14 x).length < x.length :=
  subAllAux_fix_or_shrink _ _ (by decide) _ none x

theorem cleanRule15_fos (x : Str) :
    cleanRule15 x = x ∨ (cleanRule15 x).length < x.length :=
  subPlusSingle_fix_or_shrink _ ' ' (fun c h => by simpa using h) _ none x

theorem cleanRule16_fos (x : Str) :
    cleanRule16 x = x ∨ (cleanRule16 x).length < x.length :=
  subAllAux_fix_or_shrink _ _ (by decide) _ none x

theorem cleanRule17_fos (x : Str) :
    cleanRule17 x = x ∨ (cleanRule17 x).length < x.length :=
  subAllAux_fix_or_shrink _ _ (by decide) _ none x

/-! ### C5, C6: the Text Normalizer and its page markers -/



theorem markersOf_cons (c : Char) (t : Str) :
    markersOf (c :: t) =
      match markerAt (c :: t) with
      | some n => n :: markersOf t
      | none => markersOf t := rfl

theorem markerAt_ws_head {c : Char} (t : Str) (h : wsb c = true) :
    markerAt (c :: t) = none := by
  have hpre : ¬ "--- PAGE ".data.isPrefixOf (c :: t) := by
    intro hpre
    rcases List.isPrefixOf_iff_prefix.mp hpre with ⟨w, hw⟩
    have h1 : ("--- PAGE ".data ++ w).head? = some '-' := rfl
    rw [hw] at h1
    simp only [List.head?_cons, Option.some.injEq] at h1
    subst h1
    simp [wsb] at h
  simp [markerAt, hpre]

theorem drop_length_takeWhile (p : Char → Bool) (l : Str) :
    l.drop (l.takeWhile p).length = l.dropWhile p := by
  induction l with
  | nil => rfl
  | cons c t ih =>
    by_cases hc : p c
    · simp [List.takeWhile_cons, List.dropWhile_cons, hc, ih]
    · simp [List.takeWhile_cons, List.dropWhile_cons, hc]

theorem takeWhile_digits_append (ds z : Str) (c : Char) (hds : ds.all Char.isDigit = true)
    (hc : Char.isDigit c = false) :
    (ds ++ c :: z).takeWhile Char.isDigit = ds := by
  induction ds with
  | nil => simp [List.takeWhile_cons, hc]
  | cons d t ih =>
    simp only [List.all_cons, Bool.and_eq_true] at hds
    simp [List.takeWhile_cons, hds.1, ih hds.2]

theorem markerDigits_eq_some_iff (r : Str) (n : Nat) :
    markerDigits r = some n ↔
      ∃ ds : Str, ds ≠ [] ∧ ds.all Char.isDigit = true ∧
        (ds ++ " ---".data) <+: r ∧ natOfDigits ds = n := by
  constructor
  · intro h
    unfold markerDigits at h
    by_cases h1 : (r.takeWhile Char.isDigit).isEmpty
    · simp [h1] at h
    · rw [if_neg h1] at h
      by_cases h2 : " ---".data.isPrefixOf (r.drop (r.takeWhile Char.isDigit).length)
      · rw [if_pos h2] at h
        refine ⟨r.takeWhile Char.isDigit, by simpa using h1, ?_, ?_, by
          simpa using h⟩
        · exact List.all_eq_true.mpr (fun c hc => List.mem_takeWhile_imp hc)
        · rw [drop_length_takeWhile] at h2
          rcases List.isPrefixOf_iff_prefix.mp h2 with ⟨w, hw⟩
          refine ⟨w, ?_⟩
          rw [List.append_assoc, hw, List.takeWhile_append_dropWhile]
      · rw [if_neg h2] at h
        cases h
  · rintro ⟨ds, hne, hdig, ⟨w, hw⟩, hval⟩
    have hr : r = ds ++ " ---".data ++ w := hw.symm
    have hdash : Char.isDigit ' ' = false := rfl
    have htw : r.takeWhile Char.isDigit = ds := by
      rw [hr, List.append_assoc]
      exact takeWhile_digits_append ds ("---".data ++ w) ' ' hdig hdash
    have hdrop : r.drop ds.length = " ---".data ++ w := by
      rw [hr, List.append_assoc]
      exact List.drop_left ds _
    unfold markerDigits
    rw [htw, hdrop]
    have hempty : ds.isEmpty = false := by
      cases ds
      · exact absurd rfl hne
      · rfl
    rw [hempty]
    have hpre : " ---".data.isPrefixOf (" ---".data ++ w) :=
      List.isPrefixOf_iff_prefix.mpr (List.prefix_append _ _)
    simp [hpre, hval]

theorem markerAt_eq_some_iff (s : Str) (n : Nat) :
    markerAt s = some n ↔
      ∃ ds : Str, ds ≠ [] ∧ ds.all Char.isDigit = true ∧
        markerCore ds <+: s ∧ natOfDigits ds = n := by
  by_cases hp : "--- PAGE ".data.isPrefixOf s
  · rcases List.isPrefixOf_iff_prefix.mp hp with ⟨w, hw⟩
    have hdropw : s.drop 9 = w := by
      rw [← hw]
      exact List.drop_left "--- PAGE ".data w
    unfold markerAt
    rw [if_pos hp, hdropw, markerDigits_eq_some_iff]
    constructor
    · rintro ⟨ds, hne, hdig, hpre, hval⟩
      refine ⟨ds, hne, hdig, ?_, hval⟩
      unfold markerCore
      rw [List.append_assoc, ← hw]
      exact (List.prefix_append_right_inj "--- PAGE ".data).mpr hpre
    · rintro ⟨ds, hne, hdig, hpre, hval⟩
      refine ⟨ds, hne, hdig, ?_, hval⟩
      unfold markerCore at hpre
      rw [List.append_assoc, ← hw] at hpre
      exact (List.prefix_append_right_inj "--- PAGE ".data).mp hpre
  · unfold markerAt
    rw [if_neg hp]
    constructor
    · intro h; cases h
    · rintro ⟨ds, _, _, hpre, _⟩
      exfalso
      apply hp
      apply List.isPrefixOf_iff_prefix.mpr
      have h1 : "--- PAGE ".data <+: markerCore ds := by
        unfold markerCore
        rw [List.append_assoc]
        exact List.prefix_append _ _
      exact h1.trans hpre

theorem prefix_append_allws {p x w : Str} (hw : w.all wsb = true)
    (hlast : ∃ c, p.getLast? = some c ∧ wsb c = false) :
    p <+: x ++ w → p <+: x := by
  intro hp
  rcases le_or_lt p.length x.length with hle | hlt
  · have h1 : p = (x ++ w).take p.length := List.prefix_iff_eq_take.mp hp
    rw [List.take_append_eq_append_take, Nat.sub_eq_zero_of_le hle,
      List.take_zero, List.append_nil] at h1
    rw [h1]
    exact List.take_prefix _ x
  · exfalso
    rcases hlast with ⟨c, hc, hcw⟩
    have h1 : p = (x ++ w).take p.length := List.prefix_iff_eq_take.mp hp
    rw [List.take_append_eq_append_take,
      List.take_of_length_le (Nat.le_of_lt hlt)] at h1
    set k := p.length - x.length with hk
    have hkpos : 0 < k := Nat.sub_pos_of_lt hlt
    have hlen : p.length ≤ x.length + w.length := by
      have := hp.length_le
      simpa using this
    have hkw : k ≤ w.length := by omega
    have hwk : (w.take k) ≠ [] := by
      intro hnil
      have := congrArg List.length hnil
      simp [List.length_take, Nat.min_eq_left hkw] at this
      omega
    have hlast2 : p.getLast? = (w.take k).getLast? := by
      rw [h1]
      rw [List.getLast?_append]
      cases hg : (w.take k).getLast? with
      | none => exact absurd (List.getLast?_eq_none_iff.mp hg) hwk
      | some d => rfl
    rw [hc] at hlast2
    have hd : c ∈ w.take k := List.mem_of_mem_getLast? (by rw [← hlast2]; rfl)
    have : wsb c = true :=
      List.all_eq_true.mp hw c (List.take_subset k w hd)
    rw [this] at hcw
    cases hcw

theorem markerCore_getLast (ds : Str) : (markerCore ds).getLast? = some '-' := by
  unfold markerCore
  rw [List.getLast?_append]
  rfl

theorem markerAt_append_ws (x w : Str) (hw : w.all wsb = true) :
    markerAt (x ++ w) = markerAt x := by
  have hiff : ∀ n, markerAt (x ++ w) = some n ↔ markerAt x = some n := by
    intro n
    rw [markerAt_eq_some_iff, markerAt_eq_some_iff]
    constructor
    · rintro ⟨ds, hne, hdig, hpre, hval⟩
      exact ⟨ds, hne, hdig,
        prefix_append_allws hw ⟨'-', markerCore_getLast ds, rfl⟩ hpre, hval⟩
    · rintro ⟨ds, hne, hdig, hpre, hval⟩
      exact ⟨ds, hne, hdig, hpre.trans (List.prefix_append x w), hval⟩
  cases ha : markerAt (x ++ w) with
  | some n => exact ((hiff n).mp ha).symm
  | none =>
    cases hb : markerAt x with
    | some n => exact absurd ((hiff n).mpr hb) (by simp [ha])
    | none => rfl

theorem markersOf_allWs (w : Str) (hw : w.all wsb = true) : markersOf w = [] := by
  induction w with
  | nil => rfl
  | cons c t ih =>
    simp only [List.all_cons, Bool.and_eq_true] at hw
    rw [markersOf_cons, markerAt_ws_head t hw.1]
    exact ih hw.2

theorem markersOf_append_ws (x w : Str) (hw : w.all wsb = true) :
    markersOf (x ++ w) = markersOf x := by
  induction x with
  | nil => simpa using markersOf_allWs w hw
  | cons c t ih =>
    have hstep : markerAt (c :: (t ++ w)) = markerAt (c :: t) :=
      markerAt_append_ws (c :: t) w hw
    rw [List.cons_append, markersOf_cons, hstep, markersOf_cons]
    cases markerAt (c :: t) with
    | some n => rw [ih]
    | none => exact ih

theorem markersOf_rstrip (t : Str) : markersOf (rstrip t) = markersOf t := by
  have hdec : rstrip t ++ (t.reverse.takeWhile wsb).reverse = t := by
    have h := congrArg List.reverse (List.takeWhile_append_dropWhile wsb t.reverse)
    rw [List.reverse_append, List.reverse_reverse] at h
    exact h
  have hws : ((t.reverse.takeWhile wsb).reverse).all wsb = true := by
    rw [List.all_reverse]
    exact List.all_eq_true.mpr (fun c hc => List.mem_takeWhile_imp hc)
  conv_rhs => rw [← hdec]
  exact (markersOf_append_ws (rstrip t) _ hws).symm

theorem markersOf_lstrip (t : Str) : markersOf (lstrip t) = markersOf t := by
  induction t with
  | nil => rfl
  | cons c t ih =>
    by_cases hc : wsb c
    · have h1 : lstrip (c :: t) = lstrip t := by simp [lstrip, List.dropWhile_cons, hc]
      rw [h1, markersOf_cons, markerAt_ws_head t hc]
      exact ih
    · have h1 : lstrip (c :: t) = c :: t := by simp [lstrip, List.dropWhile_cons, hc]
      rw [h1]

theorem markersOf_pyStrip (t : Str) : markersOf (pyStrip t) = markersOf t := by
  unfold pyStrip
  rw [markersOf_lstrip, markersOf_rstrip]

/-- C5 counterexample: the boilerplate rule that removes a
`HOTSPOT ... (?=\n\n|\Z)` span deletes the page marker inside it — the input
carries marker page 2, the normalized output carries no marker at all. -/
theorem C5_counterexample :
    markersOf "HOTSPOT\n--- PAGE 2 ---".data = [2] ∧
    clean_text "HOTSPOT\n--- PAGE 2 ---".data = [] ∧
    markersOf (clean_text "HOTSPOT\n--- PAGE 2 ---".data) = [] := by
  exact ⟨rfl, rfl, rfl⟩

/-- C5 amended: when none of the normalizer's rewrite rules matches the
input (so only the outer `strip()` acts), every page marker survives with
the same page number and in the same relative order; in general a marker
lying inside a removed boilerplate span is destroyed. -/
theorem C5_markers_survive (t : Str)
    (h1 : cleanRule1 t = t) (h2 : cleanRule2 t = t) (h3 : cleanRule3 t = t)
    (h4 : cleanRule4 t = t) (h5 : cleanRule5 t = t) (h6 : cleanRule6 t = t)
    (h7 : cleanRule7 t = t) (h8 : cleanRule8 t = t) (h9 : cleanRule9 t = t)
    (h10 : cleanRule10 t = t) (h11 : cleanRule11 t = t) (h12 : cleanRule12 t = t)
    (h13 : cleanRule13 t = t) (h14 : cleanRule14 t = t) (h15 : cleanRule15 t = t)
    (h16 : cleanRule16 t = t) (h17 : cleanRule17 t = t) :
    markersOf (clean_text t) = markersOf t := by
  unfold clean_text
  rw [h1, h2, h3, h4, h5, h6, h7, h8, h9, h10, h11, h12, h13, h14, h15, h16, h17]
  exact markersOf_pyStrip t

/-- Witness for the amended C5 on a concrete marker-bearing text that no
rule rewrites. -/
theorem C5_markers_witness :
    markersOf (clean_text "Intro\n--- PAGE 3 ---\nBody text".data) =
      markersOf "Intro\n--- PAGE 3 ---\nBody text".data :=
  C5_markers_survive "Intro\n--- PAGE 3 ---\nBody text".data
    rfl rfl rfl rfl rfl rfl rfl rfl rfl rfl rfl rfl rfl rfl rfl rfl rfl

/-- C6 counterexample: normalization is not idempotent — collapsing the
double space in `"Page 1  of 2"` exposes a new `Page \d+ of \d+` boilerplate
match, so the second run erases what the first run kept. -/
theorem C6_counterexample :
    clean_text "Page 1  of 2".data = "Page 1 of 2".data ∧
    clean_text (clean_text "Page 1  of 2".data) = [] ∧
    clean_text (clean_text "Page 1  of 2".data) ≠ clean_text "Page 1  of 2".data := by
  refine ⟨rfl, rfl, ?_⟩
  intro h
  exact absurd (rfl.trans h) (by decide)

/-- Only-if direction of the idempotence characterization: if a second
normalizer run returns its input, every rewrite rule and the final strip
already fix the first run's output — otherwise some stage strictly shortens
the string and the second run's output would be shorter. -/
theorem clean_text_rules_fixed_of_idem (t : Str)
    (h : clean_text (clean_text t) = clean_text t) :
    cleanRule1 (clean_text t) = clean_text t ∧
      cleanRule2 (clean_text t) = clean_text t ∧
      cleanRule3 (clean_text t) = clean_text t ∧
      cleanRule4 (clean_text t) = clean_text t ∧
      cleanRule5 (clean_text t) = clean_text t ∧
      cleanRule6 (clean_text t) = clean_text t ∧
      cleanRule7 (clean_text t) = clean_text t ∧
      cleanRule8 (clean_text t) = clean_text t ∧
      cleanRule9 (clean_text t) = clean_text t ∧
      cleanRule10 (clean_text t) = clean_text t ∧
      cleanRule11 (clean_text t) = clean_text t ∧
      cleanRule12 (clean_text t) = clean_text t ∧
      cleanRule13 (clean_text t) = clean_text t ∧
      cleanRule14 (clean_text t) = clean_text t ∧
      cleanRule15 (clean_text t) = clean_text t ∧
      cleanRule16 (clean_text t) = clean_text t ∧
      cleanRule17 (clean_text t) = clean_text t ∧
      pyStrip (clean_text t) = clean_text t := by
  have h0 : pyStrip (cleanRule17 (cleanRule16 (cleanRule15 (cleanRule14 (cleanRule13 (cleanRule12 (cleanRule11 (cleanRule10 (cleanRule9 (cleanRule8 (cleanRule7 (cleanRule6 (cleanRule5 (cleanRule4 (cleanRule3 (cleanRule2 (cleanRule1 (clean_text t)))))))))))))))))) = clean_text t := h
  have b18 := pyStrip_fix_or_shrink
  have b17 := fos_comp cleanRule17_fos b18
  have b16 := fos_comp cleanRule16_fos b17
  have b15 := fos_comp cleanRule15_fos b16
  have b14 := fos_comp cleanRule14_fos b15
  have b13 := fos_comp cleanRule13_fos b14
  have b12 := fos_comp cleanRule12_fos b13
  have b11 := fos_comp cleanRule11_fos b12
  have b10 := fos_comp cleanRule10_fos b11
  have b9 := fos_comp cleanRule9_fos b10
  have b8 := fos_comp cleanRule8_fos b9
  have b7 := fos_comp cleanRule7_fos b8
  have b6 := fos_comp cleanRule6_fos b7
  have b5 := fos_comp cleanRule5_fos b6
  have b4 := fos_comp cleanRule4_fos b5
  have b3 := fos_comp cleanRule3_fos b4
  have b2 := fos_comp cleanRule2_fos b3
  have s1 := fos_split cleanRule1_fos b2 (clean_text t) h0
  have s2 := fos_split cleanRule2_fos b3 (clean_text t) s1.2
  have s3 := fos_split cleanRule3_fos b4 (clean_text t) s2.2
  have s4 := fos_split cleanRule4_fos b5 (clean_text t) s3.2
  have s5 := fos_split cleanRule5_fos b6 (clean_text t) s4.2
  have s6 := fos_split cleanRule6_fos b7 (clean_text t) s5.2
  have s7 := fos_split cleanRule7_fos b8 (clean_text t) s6.2
  have s8 := fos_split cleanRule8_fos b9 (clean_text t) s7.2
  have s9 := fos_split cleanRule9_fos b10 (clean_text t) s8.2
  have s10 := fos_split cleanRule10_fos b11 (clean_text t) s9.2
  have s11 := fos_split cleanRule11_fos b12 (clean_text t) s10.2
  have s12 := fos_split cleanRule12_fos b13 (clean_text t) s11.2
  have s13 := fos_split cleanRule13_fos b14 (clean_text t) s12.2
  have s14 := fos_split cleanRule14_fos b15 (clean_text t) s13.2
  have s15 := fos_split cleanRule15_fos b16 (clean_text t) s14.2
  have s16 := fos_split cleanRule16_fos b17 (clean_text t) s15.2
  have s17 := fos_split cleanRule17_fos b18 (clean_text t) s16.2
  exact ⟨s1.1, s2.1, s3.1, s4.1, s5.1, s6.1, s7.1, s8.1, s9.1, s10.1, s11.1, s12.1, s13.1, s14.1, s15.1, s16.1, s17.1, s17.2⟩

/-- C6 amended: the normalizer is idempotent exactly on those inputs whose
first-run output is a fixed point of every rewrite rule and of the final
strip; in general whitespace collapse can expose a new boilerplate match and
the second run removes more. -/
theorem C6_idempotent_iff_rules_fixed (t : Str) :
    clean_text (clean_text t) = clean_text t ↔
      (cleanRule1 (clean_text t) = clean_text t ∧
      cleanRule2 (clean_text t) = clean_text t ∧
      cleanRule3 (clean_text t) = clean_text t ∧
      cleanRule4 (clean_text t) = clean_text t ∧
      cleanRule5 (clean_text t) = clean_text t ∧
      cleanRule6 (clean_text t) = clean_text t ∧
      cleanRule7 (clean_text t) = clean_text t ∧
      cleanRule8 (clean_text t) = clean_text t ∧
      cleanRule9 (clean_text t) = clean_text t ∧
      cleanRule10 (clean_text t) = clean_text t ∧
      cleanRule11 (clean_text t) = clean_text t ∧
      cleanRule12 (clean_text t) = clean_text t ∧
      cleanRule13 (clean_text t) = clean_text t ∧
      cleanRule14 (clean_text t) = clean_text t ∧
      cleanRule15 (clean_text t) = clean_text t ∧
      cleanRule16 (clean_text t) = clean_text t ∧
      cleanRule17 (clean_text t) = clean_text t ∧
      pyStrip (clean_text t) = clean_text t) := by
  constructor
  · exact clean_text_rules_fixed_of_idem t
  · rintro ⟨h1, h2, h3, h4, h5, h6, h7, h8, h9, h10, h11, h12, h13, h14, h15, h16, h17, h18⟩
    show pyStrip (cleanRule17 (cleanRule16 (cleanRule15 (cleanRule14 (cleanRule13 (cleanRule12 (cleanRule11 (cleanRule10 (cleanRule9 (cleanRule8 (cleanRule7 (cleanRule6 (cleanRule5 (cleanRule4 (cleanRule3 (cleanRule2 (cleanRule1 (clean_text t)))))))))))))))))) = clean_text t
    rw [h1, h2, h3, h4, h5, h6, h7, h8, h9, h10, h11, h12, h13, h14, h15, h16, h17]
    exact h18

end ExamMgmt

